import Mathlib

/-!
# Verification of the `dropper` signaling relay and transfer engine

Shallow embedding of the `dropper` repository:

* the in-memory signaling server (rooms, join / signal / close handling),
  from the server source (`wss.on("connection")`, `cleanupSocket`,
  `getOrCreateRoom`);
* the client transfer engine (`useFileTransfer.js`): chunked send,
  incoming reassembly, pending-send queue and its retry reconciliation;
* the peer orchestrator decisions (`usePeers.js`): initiator tie-break and
  `handleDataChannelReady`.

JavaScript `Map`s are modelled as association lists in insertion order
(`Map.set` replaces in place or appends, `Map.delete` removes the key,
iteration follows insertion order), JavaScript `Set`s as duplicate-free
lists in insertion order.  A falsy string field of a JSON message
(missing or `""`) is modelled as `""`.  Socket objects are identified by
numeric ids; `readyState === 1` is modelled as "not in the `closed` set".
-/

namespace Dropper

/-! ## JavaScript `Map` / `Set` primitives -/

/-- `Map.get`: value of the first (unique) entry with the given key. -/
def mapGet {κ β : Type} [DecidableEq κ] (k : κ) : List (κ × β) → Option β
  | [] => none
  | (k', v) :: rest => if k' = k then some v else mapGet k rest

/-- `Map.has`. -/
def mapHas {κ β : Type} [DecidableEq κ] (k : κ) (l : List (κ × β)) : Bool :=
  (mapGet k l).isSome

/-- `Map.set`: replace in place if the key is present, else append. -/
def mapSet {κ β : Type} [DecidableEq κ] (k : κ) (v : β) : List (κ × β) → List (κ × β)
  | [] => [(k, v)]
  | (k', v') :: rest => if k' = k then (k', v) :: rest else (k', v') :: mapSet k v rest

/-- `Map.delete`: remove the entry with the given key. -/
def mapDelete {κ β : Type} [DecidableEq κ] (k : κ) (l : List (κ × β)) : List (κ × β) :=
  l.filter (fun p => decide (p.1 ≠ k))

/-- `Set.add`: append if not already present. -/
def setAdd {α : Type} [DecidableEq α] (x : α) (l : List α) : List α :=
  if x ∈ l then l else l ++ [x]

/-- `Set.delete`: remove an element. -/
def setDelete {α : Type} [DecidableEq α] (x : α) (l : List α) : List α :=
  l.filter (fun y => decide (y ≠ x))

@[simp] theorem mapGet_nil {κ β : Type} [DecidableEq κ] (k : κ) :
    mapGet (β := β) k [] = none := rfl

theorem mapGet_cons {κ β : Type} [DecidableEq κ] (k k' : κ) (v : β) (l : List (κ × β)) :
    mapGet k ((k', v) :: l) = if k' = k then some v else mapGet k l := rfl

theorem mapGet_mapSet_self {κ β : Type} [DecidableEq κ] (k : κ) (v : β) (l : List (κ × β)) :
    mapGet k (mapSet k v l) = some v := by
  induction l with
  | nil => simp [mapGet, mapSet]
  | cons p rest ih =>
      obtain ⟨k', v'⟩ := p
      by_cases h : k' = k <;> simp [mapGet, mapSet, h, ih]

theorem mapGet_mapSet_ne {κ β : Type} [DecidableEq κ] {k k' : κ} (v : β) (l : List (κ × β))
    (h : k ≠ k') : mapGet k' (mapSet k v l) = mapGet k' l := by
  induction l with
  | nil => simp [mapGet, mapSet, h]
  | cons p rest ih =>
      obtain ⟨k₀, v₀⟩ := p
      by_cases h₀ : k₀ = k
      · subst h₀; simp [mapGet, mapSet, h]
      · simp [mapGet, mapSet, h₀, ih]

theorem mapDelete_cons {κ β : Type} [DecidableEq κ] (k k' : κ) (v : β) (l : List (κ × β)) :
    mapDelete k ((k', v) :: l) =
      if k' = k then mapDelete k l else (k', v) :: mapDelete k l := by
  by_cases h : k' = k <;> simp [mapDelete, h]

theorem mapGet_mapDelete_self {κ β : Type} [DecidableEq κ] (k : κ) (l : List (κ × β)) :
    mapGet k (mapDelete k l) = none := by
  induction l with
  | nil => simp [mapDelete]
  | cons p rest ih =>
      obtain ⟨k', v'⟩ := p
      rw [mapDelete_cons]
      by_cases h : k' = k
      · simpa [h] using ih
      · simpa [mapGet_cons, h] using ih

theorem mapGet_mapDelete_ne {κ β : Type} [DecidableEq κ] {k k' : κ} (l : List (κ × β))
    (h : k' ≠ k) : mapGet k' (mapDelete k l) = mapGet k' l := by
  induction l with
  | nil => simp [mapDelete]
  | cons p rest ih =>
      obtain ⟨k₀, v₀⟩ := p
      rw [mapDelete_cons]
      by_cases h₀ : k₀ = k
      · subst h₀; simp [mapGet_cons, Ne.symm h, ih]
      · simp [mapGet_cons, h₀, ih]

theorem mem_setAdd {α : Type} [DecidableEq α] (x y : α) (l : List α) :
    y ∈ setAdd x l ↔ y ∈ l ∨ y = x := by
  unfold setAdd
  by_cases h : x ∈ l
  · simp only [if_pos h]
    constructor
    · exact Or.inl
    · rintro (hy | rfl) <;> [exact hy; exact h]
  · simp [if_neg h]

theorem mem_setDelete {α : Type} [DecidableEq α] {x y : α} {l : List α} :
    y ∈ setDelete x l ↔ y ∈ l ∧ y ≠ x := by
  simp [setDelete, List.mem_filter]

theorem setDelete_nodup {α : Type} [DecidableEq α] {x : α} {l : List α}
    (h : l.Nodup) : (setDelete x l).Nodup :=
  List.Nodup.filter _ h

theorem setAdd_nodup {α : Type} [DecidableEq α] {x : α} {l : List α}
    (h : l.Nodup) : (setAdd x l).Nodup := by
  unfold setAdd
  by_cases hx : x ∈ l
  · simpa [hx]
  · simp only [if_neg hx]
    rw [List.nodup_append]
    refine ⟨h, List.nodup_singleton x, ?_⟩
    intro a ha hax
    simp only [List.mem_singleton] at hax
    exact hx (hax ▸ ha)

/-! ## Signaling server model

Embedding of the in-memory signaling server: `rooms` registry,
`getOrCreateRoom`, the `join` and `signal` branches of the message
handler, and `cleanupSocket` with the `close` handler.  A socket is a
`Nat`; each connection's closure variable `roomId` lives in `connRoom`
(absent or falsy modelled as `""`); `closed` is the set of sockets whose
`readyState` is no longer 1. -/

/-- Device metadata stored in a room's `devices` map. -/
structure DeviceMeta where
  deviceId : String
  deviceName : String
  color : String
deriving DecidableEq, Repr

/-- Per-room server state: `devices`, `sockets`, `socketToDeviceId`. -/
structure RoomState where
  devices : List (String × DeviceMeta)
  sockets : List Nat
  socketToDeviceId : List (Nat × String)
deriving DecidableEq, Repr

/-- The fresh room value created by `getOrCreateRoom`. -/
def emptyRoom : RoomState := ⟨[], [], []⟩

/-- Whole-server state: the `rooms` registry plus per-connection data. -/
structure ServerState where
  rooms : List (String × RoomState)
  connRoom : List (Nat × String)
  closed : List Nat
deriving DecidableEq, Repr

/-- The state before any connection. -/
def initServer : ServerState := ⟨[], [], []⟩

/-- Frames the server sends, tagged with the receiving socket. -/
inductive Out where
  | peersSync (ws : Nat) (roomId : String) (peers : List DeviceMeta)
  | peerJoined (ws : Nat) (roomId : String) (peer : DeviceMeta)
  | peerLeft (ws : Nat) (roomId : String) (deviceId : String)
  | signalOut (ws : Nat) (roomId fromId toId signalType payload : String)
  | signalError (ws : Nat) (reason toId signalType : String)
deriving DecidableEq, Repr

/-- Parsed client messages; `other` stands for any unrecognized frame. -/
inductive ClientMsg where
  | join (roomId deviceId deviceName color : String)
  | signal (roomId fromId toId signalType payload : String)
  | other
deriving DecidableEq, Repr

/-- Events given to the server: a parsed message from a socket, or its close. -/
inductive Event where
  | message (ws : Nat) (msg : ClientMsg)
  | close (ws : Nat)
deriving DecidableEq, Repr

/-- Registration part of the `join` branch: add the socket to the room,
then, when the device id is truthy, register the device and the
socket-to-device mapping. -/
def joinRoomUpdate (ws : Nat) (did dname dcolor : String) (room : RoomState) : RoomState :=
  let room := { room with sockets := setAdd ws room.sockets }
  if did = "" then room
  else { room with
    devices := mapSet did ⟨did, dname, dcolor⟩ room.devices,
    socketToDeviceId := mapSet ws did room.socketToDeviceId }

/-- The `join` branch of the message handler.  Assigns the connection's
`roomId` closure variable first, returns on a falsy room id, registers
the socket and device via `joinRoomUpdate` on the room obtained by
`getOrCreateRoom`, replies with `peers-sync`, and broadcasts
`peer-joined` to the other ready sockets. -/
def handleJoin (S : ServerState) (ws : Nat) (rid did dname dcolor : String) :
    ServerState × List Out :=
  let S := { S with connRoom := mapSet ws rid S.connRoom }
  if rid = "" then (S, []) else
  let room := joinRoomUpdate ws did dname dcolor ((mapGet rid S.rooms).getD emptyRoom)
  let peers :=
    (room.devices.map (·.2)).filter (fun d => decide (d.deviceId ≠ "" ∧ d.deviceId ≠ did))
  let joinedOuts :=
    if did = "" then []
    else
      (room.sockets.filter (fun c => decide (c ≠ ws ∧ c ∉ S.closed))).map
        (fun c => Out.peerJoined c rid ⟨did, dname, dcolor⟩)
  ({ S with rooms := mapSet rid room S.rooms },
    Out.peersSync ws rid peers :: joinedOuts)

/-- `cleanupSocket(ws, roomId)`: remove the socket from its room, remove
its device (notifying the remaining ready sockets with `peer-left`), and
delete the room once its socket set is empty. -/
def cleanupSocket (S : ServerState) (ws : Nat) (rid : String) :
    ServerState × List Out :=
  if rid = "" then (S, []) else
  match mapGet rid S.rooms with
  | none => (S, [])
  | some room =>
    let did? := mapGet ws room.socketToDeviceId
    let room := { room with
      sockets := setDelete ws room.sockets,
      socketToDeviceId := mapDelete ws room.socketToDeviceId }
    let step :=
      match did? with
      | some did =>
        if mapHas did room.devices then
          ({ room with devices := mapDelete did room.devices },
            (room.sockets.filter (fun c => decide (c ∉ S.closed))).map
              (fun c => Out.peerLeft c rid did))
        else (room, ([] : List Out))
      | none => (room, [])
    let room := step.1
    if room.sockets = [] then
      ({ S with rooms := mapDelete rid S.rooms }, step.2)
    else
      ({ S with rooms := mapSet rid room S.rooms }, step.2)

/-- The `signal` branch of the message handler.  Resolves the active room
(message room id or the connection's), silently drops the frame when the
room is unknown or `to` / `from` is falsy, answers `signal-error` with
reason `TARGET_NOT_FOUND` when the target device is not in the room's
directory, and otherwise forwards the frame to every ready socket mapped
to the target device.  The registry is never mutated. -/
def handleSignal (S : ServerState) (ws : Nat)
    (rid fromId toId signalType payload : String) : List Out :=
  let activeRoomId := if rid ≠ "" then rid else (mapGet ws S.connRoom).getD ""
  if activeRoomId = "" then [] else
  match mapGet activeRoomId S.rooms with
  | none => []
  | some room =>
    if toId = "" ∨ fromId = "" then [] else
    match mapGet toId room.devices with
    | none =>
      if ws ∉ S.closed then
        [Out.signalError ws "TARGET_NOT_FOUND" toId signalType]
      else []
    | some _ =>
      (room.socketToDeviceId.filter (fun p => decide (p.2 = toId ∧ p.1 ∉ S.closed))).map
        (fun p => Out.signalOut p.1 activeRoomId fromId toId signalType payload)

/-- One server step: dispatch a message to its branch, or run the close
handler (mark the socket closed, then `cleanupSocket` on its room). -/
def stepServer (S : ServerState) (e : Event) : ServerState × List Out :=
  match e with
  | .message ws (.join rid did dname dcolor) => handleJoin S ws rid did dname dcolor
  | .message ws (.signal rid fromId toId stype payload) =>
      (S, handleSignal S ws rid fromId toId stype payload)
  | .message _ .other => (S, [])
  | .close ws =>
      let rid := (mapGet ws S.connRoom).getD ""
      cleanupSocket { S with closed := setAdd ws S.closed } ws rid

/-- Run the server from a state over a list of events (states only). -/
def runServerFrom (S : ServerState) : List Event → ServerState
  | [] => S
  | e :: es => runServerFrom (stepServer S e).1 es

/-- Run the server from the initial state. -/
def runServer (es : List Event) : ServerState :=
  runServerFrom initServer es

/-! ## Additional association-list lemmas -/

theorem mapGet_mem {κ β : Type} [DecidableEq κ] {k : κ} {v : β} {l : List (κ × β)}
    (h : mapGet k l = some v) : (k, v) ∈ l := by
  induction l with
  | nil => simp [mapGet] at h
  | cons p rest ih =>
      obtain ⟨k', v'⟩ := p
      rw [mapGet_cons] at h
      by_cases hk : k' = k
      · rw [if_pos hk] at h
        obtain rfl := Option.some.inj h
        subst hk
        exact List.mem_cons_self _ _
      · rw [if_neg hk] at h
        exact List.mem_cons_of_mem _ (ih h)

theorem mapHas_iff_exists {κ β : Type} [DecidableEq κ] {k : κ} {l : List (κ × β)} :
    mapHas k l = true ↔ ∃ p ∈ l, p.1 = k := by
  induction l with
  | nil => simp [mapHas, mapGet]
  | cons p rest ih =>
      obtain ⟨k', v'⟩ := p
      by_cases hk : k' = k
      · subst hk; simp [mapHas, mapGet_cons]
      · simp only [mapHas, mapGet_cons, if_neg hk] at ih ⊢
        constructor
        · intro h
          obtain ⟨q, hq, hqk⟩ := ih.mp h
          exact ⟨q, List.mem_cons_of_mem _ hq, hqk⟩
        · rintro ⟨q, hq, hqk⟩
          rcases List.mem_cons.mp hq with h | h
          · rw [h] at hqk
            exact absurd hqk hk
          · exact ih.mpr ⟨q, h, hqk⟩

theorem mapSet_not_has {κ β : Type} [DecidableEq κ] {k : κ} (v : β) {l : List (κ × β)}
    (h : mapHas k l = false) : mapSet k v l = l ++ [(k, v)] := by
  induction l with
  | nil => rfl
  | cons p rest ih =>
      obtain ⟨k', v'⟩ := p
      simp only [mapHas, mapGet_cons] at h
      by_cases hk : k' = k
      · simp [hk] at h
      · simp only [mapSet, if_neg hk, List.cons_append, List.cons.injEq, true_and]
        exact ih (by simpa [mapHas, hk] using h)

theorem mem_mapDelete {κ β : Type} [DecidableEq κ] {k : κ} {p : κ × β} {l : List (κ × β)} :
    p ∈ mapDelete k l ↔ p ∈ l ∧ p.1 ≠ k := by
  simp [mapDelete, List.mem_filter]

theorem mapDelete_sublist {κ β : Type} [DecidableEq κ] (k : κ) (l : List (κ × β)) :
    (mapDelete k l).Sublist l :=
  List.filter_sublist l

theorem mapHas_mapSet {κ β : Type} [DecidableEq κ] {d k : κ} (v : β) (l : List (κ × β)) :
    mapHas d (mapSet k v l) = true ↔ mapHas d l = true ∨ d = k := by
  by_cases h : d = k
  · subst h; simp [mapHas, mapGet_mapSet_self]
  · rw [mapHas, mapGet_mapSet_ne v l (Ne.symm h), ← mapHas]
    simp [h]

theorem mapGet_of_mem_keyNodup {κ β : Type} [DecidableEq κ] {p : κ × β} {l : List (κ × β)}
    (hn : (l.map Prod.fst).Nodup) (hp : p ∈ l) : mapGet p.1 l = some p.2 := by
  induction l with
  | nil => cases hp
  | cons q rest ih =>
      obtain ⟨k', v'⟩ := q
      simp only [List.map_cons, List.nodup_cons] at hn
      rcases List.mem_cons.mp hp with h | h
      · subst h; simp [mapGet_cons]
      · have hne : k' ≠ p.1 := by
          intro hkp
          exact hn.1 (hkp ▸ List.mem_map_of_mem Prod.fst h)
        rw [mapGet_cons, if_neg hne]
        exact ih hn.2 h

theorem eq_of_mem_valNodup {κ β : Type} [DecidableEq κ] {p q : κ × β} {l : List (κ × β)}
    (hn : (l.map Prod.snd).Nodup) (hp : p ∈ l) (hq : q ∈ l) (h : p.2 = q.2) : p = q := by
  induction l with
  | nil => cases hp
  | cons r rest ih =>
      simp only [List.map_cons, List.nodup_cons] at hn
      rcases List.mem_cons.mp hp with h₁ | h₁ <;> rcases List.mem_cons.mp hq with h₂ | h₂
      · exact h₁.trans h₂.symm
      · subst h₁
        exact absurd (h ▸ List.mem_map_of_mem Prod.snd h₂) hn.1
      · subst h₂
        exact absurd (h ▸ List.mem_map_of_mem Prod.snd h₁) hn.1
      · exact ih hn.2 h₁ h₂

theorem mem_mapSet_keyNodup {κ β : Type} [DecidableEq κ] {k : κ} {v : β} {p : κ × β}
    {l : List (κ × β)} (hn : (l.map Prod.fst).Nodup) (hp : p ∈ mapSet k v l) :
    p = (k, v) ∨ (p ∈ l ∧ p.1 ≠ k) := by
  induction l with
  | nil => simp only [mapSet, List.mem_singleton] at hp; exact Or.inl hp
  | cons q rest ih =>
      obtain ⟨k', v'⟩ := q
      simp only [List.map_cons, List.nodup_cons] at hn
      by_cases hk : k' = k
      · subst hk
        simp only [mapSet, if_pos rfl] at hp
        rcases List.mem_cons.mp hp with h | h
        · exact Or.inl h
        · refine Or.inr ⟨List.mem_cons_of_mem _ h, ?_⟩
          intro hpk
          exact hn.1 (hpk ▸ List.mem_map_of_mem Prod.fst h)
      · simp only [mapSet, if_neg hk] at hp
        rcases List.mem_cons.mp hp with h | h
        · subst h; exact Or.inr ⟨List.mem_cons_self _ _, hk⟩
        · rcases ih hn.2 h with h' | h'
          · exact Or.inl h'
          · exact Or.inr ⟨List.mem_cons_of_mem _ h'.1, h'.2⟩

theorem keys_mapSet {κ β : Type} [DecidableEq κ] (k : κ) (v : β) (l : List (κ × β)) :
    (mapSet k v l).map Prod.fst =
      if mapHas k l = true then l.map Prod.fst else l.map Prod.fst ++ [k] := by
  induction l with
  | nil => simp [mapSet, mapHas]
  | cons p rest ih =>
      obtain ⟨k', v'⟩ := p
      by_cases hk : k' = k
      · subst hk; simp [mapSet, mapHas, mapGet_cons]
      · have hcons : mapHas k ((k', v') :: rest) = mapHas k rest := by
          simp [mapHas, mapGet_cons, hk]
        rw [hcons]
        simp only [mapSet, if_neg hk, List.map_cons, ih]
        split <;> simp

theorem keys_mapSet_nodup {κ β : Type} [DecidableEq κ] {k : κ} (v : β) {l : List (κ × β)}
    (hn : (l.map Prod.fst).Nodup) : ((mapSet k v l).map Prod.fst).Nodup := by
  rw [keys_mapSet]
  split
  · exact hn
  · rename_i h
    rw [List.nodup_append]
    refine ⟨hn, by simp, ?_⟩
    intro a ha hb
    simp only [List.mem_singleton] at hb
    subst hb
    obtain ⟨p, hp, hpk⟩ := List.mem_map.mp ha
    exact h (mapHas_iff_exists.mpr ⟨p, hp, hpk⟩)

/-! ## Claim C2: the registry invariant -/

/-- The devices-sockets invariant of one room, as the spec states it: a
device id is a key of `devices` iff some socket maps to it in
`socketToDeviceId`; every `socketToDeviceId` entry has a matching entry
in `sockets`; and the room's socket set is non-empty (a room entry
exists iff its sockets set is non-empty). -/
def RoomInv (rs : RoomState) : Prop :=
  (∀ p ∈ rs.socketToDeviceId, p.1 ∈ rs.sockets) ∧
  (∀ p ∈ rs.devices, ∃ q ∈ rs.socketToDeviceId, q.2 = p.1) ∧
  (∀ q ∈ rs.socketToDeviceId, mapHas q.2 rs.devices = true) ∧
  rs.sockets ≠ []

/-- The claimed invariant over the whole registry. -/
def registryInv (S : ServerState) : Prop :=
  ∀ pr ∈ S.rooms, RoomInv pr.2

instance (rs : RoomState) : Decidable (RoomInv rs) := by
  unfold RoomInv; infer_instance

instance (S : ServerState) : Decidable (registryInv S) := by
  unfold registryInv; infer_instance

/-- Strengthened per-room invariant used for the induction: structural
well-formedness of the JavaScript maps and sets, the claimed invariant,
and the fact that every member socket's connection variable points back
at this room. -/
structure RoomWf (cr : List (Nat × String)) (rid : String) (rs : RoomState) : Prop where
  socketsNodup : rs.sockets.Nodup
  stdKeysNodup : (rs.socketToDeviceId.map Prod.fst).Nodup
  stdValsNodup : (rs.socketToDeviceId.map Prod.snd).Nodup
  devKeysNodup : (rs.devices.map Prod.fst).Nodup
  inv : RoomInv rs
  conn : ∀ s ∈ rs.sockets, mapGet s cr = some rid

/-- Strengthened whole-server invariant. -/
structure Wf (S : ServerState) : Prop where
  keysNodup : (S.rooms.map Prod.fst).Nodup
  roomsWf : ∀ pr ∈ S.rooms, RoomWf S.connRoom pr.1 pr.2

/-- A socket is fresh: it sits in no room. -/
def sockFresh (S : ServerState) (ws : Nat) : Bool :=
  S.rooms.all (fun pr => decide (ws ∉ pr.2.sockets))

/-- A device id is fresh: it is registered in no room's directory. -/
def devFresh (S : ServerState) (d : String) : Bool :=
  S.rooms.all (fun pr => !(mapHas d pr.2.devices))

/-- A join event is admissible in a state when its socket is not
currently in a room and its device id (when truthy) is not currently
registered anywhere; every other event is always admissible. -/
def goodEvent (S : ServerState) : Event → Bool
  | .message ws (.join _ did _ _) =>
      sockFresh S ws && (did == "" || devFresh S did)
  | _ => true

/-- An event list is a good run from a state when each event is
admissible in the state it is applied to. -/
def goodRun (S : ServerState) : List Event → Bool
  | [] => true
  | e :: es => goodEvent S e && goodRun (stepServer S e).1 es

theorem sockFresh_spec {S : ServerState} {ws : Nat} (h : sockFresh S ws = true) :
    ∀ pr ∈ S.rooms, ws ∉ pr.2.sockets := by
  intro pr hpr
  have := List.all_eq_true.mp h pr hpr
  simpa using this

theorem devFresh_spec {S : ServerState} {d : String} (h : devFresh S d = true) :
    ∀ pr ∈ S.rooms, mapHas d pr.2.devices = false := by
  intro pr hpr
  have := List.all_eq_true.mp h pr hpr
  simpa using this

theorem roomWf_connRoom_set {cr : List (Nat × String)} {rid' : String} {rs : RoomState}
    {ws : Nat} (rid : String) (hws : ws ∉ rs.sockets) (h : RoomWf cr rid' rs) :
    RoomWf (mapSet ws rid cr) rid' rs := by
  refine ⟨h.socketsNodup, h.stdKeysNodup, h.stdValsNodup, h.devKeysNodup, h.inv, ?_⟩
  intro s hs
  have hne : ws ≠ s := fun he => hws (he ▸ hs)
  rw [mapGet_mapSet_ne _ _ hne]
  exact h.conn s hs

theorem mapHas_append {κ β : Type} [DecidableEq κ] (k : κ) (l₁ l₂ : List (κ × β)) :
    mapHas k (l₁ ++ l₂) = (mapHas k l₁ || mapHas k l₂) := by
  induction l₁ with
  | nil => simp [mapHas, mapGet]
  | cons p rest ih =>
      obtain ⟨k', v'⟩ := p
      by_cases hk : k' = k
      · simp [mapHas, mapGet_cons, hk]
      · simpa [mapHas, mapGet_cons, hk] using ih

/-- Registering a fresh socket (and fresh device) in a room preserves
the strengthened room invariant. -/
theorem roomWf_joinRoomUpdate {cr : List (Nat × String)} {rid : String} {room : RoomState}
    {ws : Nat} {did : String} (dname dcolor : String)
    (hWf : RoomWf cr rid room ∨ room = emptyRoom)
    (hws : ws ∉ room.sockets)
    (hdev : did ≠ "" → mapHas did room.devices = false) :
    RoomWf (mapSet ws rid cr) rid (joinRoomUpdate ws did dname dcolor room) := by
  have hsock : setAdd ws room.sockets = room.sockets ++ [ws] := by
    unfold setAdd; rw [if_neg hws]
  have hsockNodup : room.sockets.Nodup := by
    rcases hWf with h | h
    · exact h.socketsNodup
    · simp [h, emptyRoom]
  have hstdKeys : (room.socketToDeviceId.map Prod.fst).Nodup := by
    rcases hWf with h | h
    · exact h.stdKeysNodup
    · simp [h, emptyRoom]
  have hstdVals : (room.socketToDeviceId.map Prod.snd).Nodup := by
    rcases hWf with h | h
    · exact h.stdValsNodup
    · simp [h, emptyRoom]
  have hdevKeys : (room.devices.map Prod.fst).Nodup := by
    rcases hWf with h | h
    · exact h.devKeysNodup
    · simp [h, emptyRoom]
  have hinva : ∀ p ∈ room.socketToDeviceId, p.1 ∈ room.sockets := by
    rcases hWf with h | h
    · exact h.inv.1
    · simp [h, emptyRoom]
  have hinvb1 : ∀ p ∈ room.devices, ∃ q ∈ room.socketToDeviceId, q.2 = p.1 := by
    rcases hWf with h | h
    · exact h.inv.2.1
    · simp [h, emptyRoom]
  have hinvb2 : ∀ q ∈ room.socketToDeviceId, mapHas q.2 room.devices = true := by
    rcases hWf with h | h
    · exact h.inv.2.2.1
    · simp [h, emptyRoom]
  have hconn : ∀ s ∈ room.sockets, mapGet s cr = some rid := by
    rcases hWf with h | h
    · exact h.conn
    · simp [h, emptyRoom]
  have hwsKeys : mapHas ws room.socketToDeviceId = false := by
    rcases h : mapHas ws room.socketToDeviceId with _ | _
    · rfl
    · obtain ⟨p, hp, hpk⟩ := mapHas_iff_exists.mp h
      exact absurd (hpk ▸ hinva p hp) hws
  have hconn' : ∀ s ∈ room.sockets ++ [ws], mapGet s (mapSet ws rid cr) = some rid := by
    intro s hs
    rcases List.mem_append.mp hs with h | h
    · have hne : ws ≠ s := fun he => hws (he ▸ h)
      rw [mapGet_mapSet_ne _ _ hne]
      exact hconn s h
    · simp only [List.mem_singleton] at h
      subst h
      exact mapGet_mapSet_self ..
  have hsocksNodup' : (room.sockets ++ [ws]).Nodup := by
    rw [List.nodup_append]
    refine ⟨hsockNodup, by simp, ?_⟩
    intro a ha hb
    simp only [List.mem_singleton] at hb
    exact hws (hb ▸ ha)
  unfold joinRoomUpdate
  by_cases hd : did = ""
  · simp only [if_pos hd]
    refine ⟨by simpa [hsock] using hsocksNodup', hstdKeys, hstdVals, hdevKeys,
      ⟨?_, hinvb1, hinvb2, by simp [hsock]⟩,
      by simpa [hsock] using hconn'⟩
    intro p hp
    rw [hsock]
    exact List.mem_append_left _ (hinva p hp)
  · simp only [if_neg hd]
    have hstd : mapSet ws did room.socketToDeviceId =
        room.socketToDeviceId ++ [(ws, did)] := mapSet_not_has _ hwsKeys
    have hdevHas : mapHas did room.devices = false := hdev hd
    have hdevs : mapSet did ⟨did, dname, dcolor⟩ room.devices =
        room.devices ++ [(did, ⟨did, dname, dcolor⟩)] := mapSet_not_has _ hdevHas
    have hdidVals : ∀ q ∈ room.socketToDeviceId, q.2 ≠ did := by
      intro q hq he
      rw [← he] at hdevHas
      rw [hinvb2 q hq] at hdevHas
      cases hdevHas
    refine ⟨by simpa [hsock] using hsocksNodup', ?_, ?_, ?_, ⟨?_, ?_, ?_, ?_⟩, ?_⟩
    · rw [hstd, List.map_append, List.nodup_append]
      refine ⟨hstdKeys, by simp, ?_⟩
      intro a ha hb
      simp only [List.map_cons, List.map_nil, List.mem_singleton] at hb
      subst hb
      obtain ⟨p, hp, hpk⟩ := List.mem_map.mp ha
      exact hws (hpk ▸ hinva p hp)
    · rw [hstd, List.map_append, List.nodup_append]
      refine ⟨hstdVals, by simp, ?_⟩
      intro a ha hb
      simp only [List.map_cons, List.map_nil, List.mem_singleton] at hb
      subst hb
      obtain ⟨p, hp, hpk⟩ := List.mem_map.mp ha
      exact hdidVals p hp hpk
    · rw [hdevs, List.map_append, List.nodup_append]
      refine ⟨hdevKeys, by simp, ?_⟩
      intro a ha hb
      simp only [List.map_cons, List.map_nil, List.mem_singleton] at hb
      subst hb
      obtain ⟨p, hp, hpk⟩ := List.mem_map.mp ha
      exact absurd (mapHas_iff_exists.mpr ⟨p, hp, hpk⟩) (by simp [hdevHas])
    · rw [hstd, hsock]
      intro p hp
      rcases List.mem_append.mp hp with h | h
      · exact List.mem_append_left _ (hinva p h)
      · simp only [List.mem_singleton] at h
        subst h
        exact List.mem_append_right _ (by simp)
    · rw [hstd, hdevs]
      intro p hp
      rcases List.mem_append.mp hp with h | h
      · obtain ⟨q, hq, hqe⟩ := hinvb1 p h
        exact ⟨q, List.mem_append_left _ hq, hqe⟩
      · simp only [List.mem_singleton] at h
        subst h
        exact ⟨(ws, did), List.mem_append_right _ (by simp), rfl⟩
    · rw [hstd, hdevs]
      intro q hq
      rw [mapHas_append]
      rcases List.mem_append.mp hq with h | h
      · rw [hinvb2 q h]; rfl
      · simp only [List.mem_singleton] at h
        subst h
        simp [mapHas, mapGet_cons]
    · simp [hsock]
    · rw [hsock]
      exact hconn'

theorem handleJoin_state {rid : String} (S : ServerState) (ws : Nat)
    (did dname dcolor : String) (h : rid ≠ "") :
    (handleJoin S ws rid did dname dcolor).1 =
      { rooms := mapSet rid
          (joinRoomUpdate ws did dname dcolor ((mapGet rid S.rooms).getD emptyRoom))
          S.rooms,
        connRoom := mapSet ws rid S.connRoom,
        closed := S.closed } := by
  simp [handleJoin, h]

theorem handleJoin_state_falsy (S : ServerState) (ws : Nat)
    (did dname dcolor : String) :
    (handleJoin S ws "" did dname dcolor).1 =
      { S with connRoom := mapSet ws "" S.connRoom } := by
  simp [handleJoin]

/-- A join whose socket and device id are fresh preserves the
strengthened server invariant. -/
theorem wf_handleJoin {S : ServerState} {ws : Nat} {rid did : String}
    (dname dcolor : String) (hWf : Wf S)
    (hs : sockFresh S ws = true) (hd : did ≠ "" → devFresh S did = true) :
    Wf (handleJoin S ws rid did dname dcolor).1 := by
  by_cases hrid : rid = ""
  · subst hrid
    rw [handleJoin_state_falsy]
    refine ⟨hWf.keysNodup, ?_⟩
    intro pr hpr
    exact roomWf_connRoom_set _ (sockFresh_spec hs pr hpr) (hWf.roomsWf pr hpr)
  · rw [handleJoin_state S ws did dname dcolor hrid]
    refine ⟨keys_mapSet_nodup _ hWf.keysNodup, ?_⟩
    intro pr hpr
    rcases mem_mapSet_keyNodup hWf.keysNodup hpr with heq | ⟨hmem, hne⟩
    · rw [heq]
      refine roomWf_joinRoomUpdate dname dcolor ?_ ?_ ?_
      · rcases hget : mapGet rid S.rooms with _ | room0
        · right; simp
        · left
          simpa using hWf.roomsWf (rid, room0) (mapGet_mem hget)
      · rcases hget : mapGet rid S.rooms with _ | room0
        · simp [emptyRoom]
        · simpa using sockFresh_spec hs (rid, room0) (mapGet_mem hget)
      · intro hdid
        rcases hget : mapGet rid S.rooms with _ | room0
        · simp [emptyRoom, mapHas]
        · simpa using devFresh_spec (hd hdid) (rid, room0) (mapGet_mem hget)
    · exact roomWf_connRoom_set _ (sockFresh_spec hs pr hmem) (hWf.roomsWf pr hmem)

/-- `cleanupSocket` preserves the strengthened server invariant, for any
socket and room id. -/
theorem wf_cleanupSocket (S : ServerState) (ws : Nat) (rid : String) (hWf : Wf S) :
    Wf (cleanupSocket S ws rid).1 := by
  unfold cleanupSocket
  by_cases hrid : rid = ""
  · simpa [hrid] using hWf
  · rw [if_neg hrid]
    rcases hget : mapGet rid S.rooms with _ | room0
    · exact hWf
    · have hroomWf : RoomWf S.connRoom rid room0 := by
        simpa using hWf.roomsWf (rid, room0) (mapGet_mem hget)
      rcases hdid : mapGet ws room0.socketToDeviceId with _ | did
      · -- no device mapping: the socket simply leaves
        simp only [hdid]
        have hstd : mapDelete ws room0.socketToDeviceId = room0.socketToDeviceId := by
          have : ∀ p ∈ room0.socketToDeviceId, p.1 ≠ ws := by
            intro p hp he
            rw [← he] at hdid
            rw [mapGet_of_mem_keyNodup hroomWf.stdKeysNodup hp] at hdid
            cases hdid
          unfold mapDelete
          rw [List.filter_eq_self]
          intro p hp
          simpa using this p hp
        set room1 : RoomState :=
          { room0 with
            sockets := setDelete ws room0.sockets,
            socketToDeviceId := mapDelete ws room0.socketToDeviceId } with hroom1
        have hWfRoom1 : room1.sockets ≠ [] → RoomWf S.connRoom rid room1 := by
          intro hne
          refine ⟨setDelete_nodup hroomWf.socketsNodup,
            by rw [hroom1]; simpa [hstd] using hroomWf.stdKeysNodup,
            by rw [hroom1]; simpa [hstd] using hroomWf.stdValsNodup,
            hroomWf.devKeysNodup, ⟨?_, ?_, ?_, hne⟩, ?_⟩
          · intro p hp
            rw [hroom1] at hp ⊢
            simp only [hstd] at hp
            rcases hget2 : mapGet ws room0.socketToDeviceId with _ | d2
            · refine mem_setDelete.mpr ⟨hroomWf.inv.1 p hp, ?_⟩
              intro he
              rw [← he] at hget2
              rw [mapGet_of_mem_keyNodup hroomWf.stdKeysNodup hp] at hget2
              cases hget2
            · rw [hget2] at hdid; cases hdid
          · intro p hp
            rw [hroom1] at hp ⊢
            simp only [hstd] at hp ⊢
            exact hroomWf.inv.2.1 p hp
          · intro q hq
            rw [hroom1] at hq ⊢
            simp only [hstd] at hq
            exact hroomWf.inv.2.2.1 q hq
          · intro s hs
            rw [hroom1] at hs
            exact hroomWf.conn s (mem_setDelete.mp hs).1
        by_cases hempty : room1.sockets = []
        · rw [if_pos hempty]
          refine ⟨?_, ?_⟩
          · exact List.Nodup.sublist ((mapDelete_sublist rid S.rooms).map Prod.fst)
              hWf.keysNodup
          · intro pr hpr
            exact hWf.roomsWf pr (mem_mapDelete.mp hpr).1
        · rw [if_neg hempty]
          refine ⟨keys_mapSet_nodup _ hWf.keysNodup, ?_⟩
          intro pr hpr
          rcases mem_mapSet_keyNodup hWf.keysNodup hpr with heq | ⟨hmem, hne⟩
          · rw [heq]
            exact hWfRoom1 hempty
          · exact hWf.roomsWf pr hmem
      · -- the socket had a device: the device leaves with it
        have hmemStd : (ws, did) ∈ room0.socketToDeviceId := mapGet_mem hdid
        have hhas : mapHas did room0.devices = true :=
          hroomWf.inv.2.2.1 (ws, did) hmemStd
        simp only [hdid, hhas, if_pos]
        set room1 : RoomState :=
          { devices := mapDelete did room0.devices,
            sockets := setDelete ws room0.sockets,
            socketToDeviceId := mapDelete ws room0.socketToDeviceId } with hroom1
        have hWfRoom1 : room1.sockets ≠ [] → RoomWf S.connRoom rid room1 := by
          intro hne
          refine ⟨setDelete_nodup hroomWf.socketsNodup,
            List.Nodup.sublist ((mapDelete_sublist ws _).map Prod.fst)
              hroomWf.stdKeysNodup,
            List.Nodup.sublist ((mapDelete_sublist ws _).map Prod.snd)
              hroomWf.stdValsNodup,
            List.Nodup.sublist ((mapDelete_sublist did _).map Prod.fst)
              hroomWf.devKeysNodup,
            ⟨?_, ?_, ?_, hne⟩, ?_⟩
          · intro p hp
            obtain ⟨hp0, hpw⟩ := mem_mapDelete.mp hp
            exact mem_setDelete.mpr ⟨hroomWf.inv.1 p hp0, hpw⟩
          · intro p hp
            obtain ⟨hp0, hpd⟩ := mem_mapDelete.mp hp
            obtain ⟨q, hq, hqe⟩ := hroomWf.inv.2.1 p hp0
            have hqw : q.1 ≠ ws := by
              intro he
              have : q = (ws, did) := by
                have := mapGet_of_mem_keyNodup hroomWf.stdKeysNodup hq
                rw [he, hdid] at this
                obtain rfl := Option.some.inj this
                exact Prod.ext he rfl
              rw [this] at hqe
              exact hpd hqe.symm
            exact ⟨q, mem_mapDelete.mpr ⟨hq, hqw⟩, hqe⟩
          · intro q hq
            obtain ⟨hq0, hqw⟩ := mem_mapDelete.mp hq
            have hqd : q.2 ≠ did := by
              intro he
              have : q = (ws, did) :=
                eq_of_mem_valNodup hroomWf.stdValsNodup hq0 hmemStd (by simp [he])
              exact hqw (by rw [this])
            rw [mapHas, mapGet_mapDelete_ne _ hqd, ← mapHas]
            exact hroomWf.inv.2.2.1 q hq0
          · intro s hs
            exact hroomWf.conn s (mem_setDelete.mp hs).1
        by_cases hempty : room1.sockets = []
        · rw [if_pos hempty]
          refine ⟨?_, ?_⟩
          · exact List.Nodup.sublist ((mapDelete_sublist rid S.rooms).map Prod.fst)
              hWf.keysNodup
          · intro pr hpr
            exact hWf.roomsWf pr (mem_mapDelete.mp hpr).1
        · rw [if_neg hempty]
          refine ⟨keys_mapSet_nodup _ hWf.keysNodup, ?_⟩
          intro pr hpr
          rcases mem_mapSet_keyNodup hWf.keysNodup hpr with heq | ⟨hmem, hne⟩
          · rw [heq]
            exact hWfRoom1 hempty
          · exact hWf.roomsWf pr hmem

theorem wf_closed_set (S : ServerState) (c : List Nat) (hWf : Wf S) :
    Wf { S with closed := c } :=
  ⟨hWf.keysNodup, hWf.roomsWf⟩

/-- Any admissible event preserves the strengthened server invariant. -/
theorem wf_stepServer (S : ServerState) (e : Event) (hWf : Wf S)
    (hg : goodEvent S e = true) : Wf (stepServer S e).1 := by
  cases e with
  | message ws msg =>
      cases msg with
      | join rid did dname dcolor =>
          simp only [goodEvent, Bool.and_eq_true, Bool.or_eq_true, beq_iff_eq] at hg
          refine wf_handleJoin dname dcolor hWf hg.1 ?_
          intro hdid
          rcases hg.2 with h | h
          · exact absurd h hdid
          · exact h
      | signal rid fromId toId stype payload => exact hWf
      | other => exact hWf
  | close ws =>
      exact wf_cleanupSocket _ ws _ (wf_closed_set S _ hWf)

theorem wf_runServerFrom (es : List Event) : ∀ S : ServerState, Wf S →
    goodRun S es = true → Wf (runServerFrom S es) := by
  induction es with
  | nil => intro S hWf _; exact hWf
  | cons e rest ih =>
      intro S hWf hg
      simp only [goodRun, Bool.and_eq_true] at hg
      exact ih _ (wf_stepServer S e hWf hg.1) hg.2

theorem wf_initServer : Wf initServer := by
  refine ⟨by simp [initServer], ?_⟩
  intro pr hpr
  simp [initServer] at hpr

/-- Claim C2, counterexample: the invariant fails on a reachable state.
One socket joins room R with device id d1 and then joins R again with
device id d2; afterwards d1 is still a key of the room's `devices`, but
no socket maps to d1 in `socketToDeviceId`. -/
theorem registryInv_not_reachable_cex : ¬ registryInv (runServer
    [Event.message 0 (ClientMsg.join "R" "d1" "n" "c"),
     Event.message 0 (ClientMsg.join "R" "d2" "n" "c")]) := by
  decide

/-- Claim C2 (amended): for every room state reachable by an
interleaving of join and disconnect events in which every join uses a
socket not currently registered in any room and a device id (when
truthy) not currently present in any room directory, every room of the
registry satisfies the invariant: a device id is a key of `devices` iff
some socket maps to it in `socketToDeviceId`, every `socketToDeviceId`
entry has a matching entry in `sockets`, and a room entry exists in the
registry only while its socket set is non-empty. -/
theorem registryInv_of_goodRun (es : List Event)
    (h : goodRun initServer es = true) : registryInv (runServer es) := by
  intro pr hpr
  exact ((wf_runServerFrom es initServer wf_initServer h).roomsWf pr hpr).inv

/-- Witness for `registryInv_of_goodRun` on a concrete run: two sockets
join room R with distinct devices and the first then disconnects. -/
theorem registryInv_of_goodRun_witness :
    goodRun initServer
        [Event.message 0 (ClientMsg.join "R" "d1" "n" "c"),
         Event.message 1 (ClientMsg.join "R" "d2" "n" "c"),
         Event.close 0] = true ∧
      registryInv (runServer
        [Event.message 0 (ClientMsg.join "R" "d1" "n" "c"),
         Event.message 1 (ClientMsg.join "R" "d2" "n" "c"),
         Event.close 0]) :=
  ⟨by decide, registryInv_of_goodRun _ (by decide)⟩

/-! ## Claims C5, C4, C10: relay outputs -/

theorem setDelete_eq_nil_iff {α : Type} [DecidableEq α] {x : α} {l : List α}
    (hnd : l.Nodup) (hx : x ∈ l) : setDelete x l = [] ↔ l = [x] := by
  constructor
  · intro h
    have hall : ∀ y ∈ l, y = x := by
      intro y hy
      by_contra hne
      have : y ∈ setDelete x l := mem_setDelete.mpr ⟨hy, hne⟩
      rw [h] at this
      cases this
    cases l with
    | nil => cases hx
    | cons a rest =>
        have ha : a = x := hall a (List.mem_cons_self _ _)
        subst ha
        cases rest with
        | nil => rfl
        | cons b rest' =>
            have hb : b = a := hall b (by simp)
            subst hb
            simp at hnd
  · intro h
    subst h
    simp [setDelete]

/-- Claim C5: on a socket disconnect where the socket had a known device
id registered in its room, every other still-connected socket of the
room receives exactly one `peer-left` frame carrying that device id, no
other socket receives one, nothing but `peer-left` frames is emitted,
and the room is deleted from the registry exactly when the departing
socket was its last one. -/
theorem cleanupSocket_peerLeft (S : ServerState) (ws : Nat) (rid : String)
    (room0 : RoomState) (did : String)
    (hrid : rid ≠ "") (hget : mapGet rid S.rooms = some room0)
    (hnd : room0.sockets.Nodup) (hws : ws ∈ room0.sockets)
    (hdid : mapGet ws room0.socketToDeviceId = some did)
    (hhas : mapHas did room0.devices = true) :
    (∀ t ∈ room0.sockets, t ≠ ws → t ∉ S.closed →
        (cleanupSocket S ws rid).2.count (Out.peerLeft t rid did) = 1) ∧
    (∀ t : Nat, t ∉ room0.sockets ∨ t = ws ∨ t ∈ S.closed →
        (cleanupSocket S ws rid).2.count (Out.peerLeft t rid did) = 0) ∧
    (∀ o ∈ (cleanupSocket S ws rid).2, ∃ u, o = Out.peerLeft u rid did) ∧
    (mapHas rid (cleanupSocket S ws rid).1.rooms = false ↔ room0.sockets = [ws]) := by
  have houts : (cleanupSocket S ws rid).2 =
      ((setDelete ws room0.sockets).filter (fun c => decide (c ∉ S.closed))).map
        (fun c => Out.peerLeft c rid did) := by
    unfold cleanupSocket
    rw [if_neg hrid]
    simp only [hget, hdid, hhas, if_pos]
    by_cases hempty : setDelete ws room0.sockets = [] <;> simp [hempty]
  have hfst : (cleanupSocket S ws rid).1.rooms =
      (if setDelete ws room0.sockets = [] then mapDelete rid S.rooms
       else mapSet rid
        (RoomState.mk (mapDelete did room0.devices) (setDelete ws room0.sockets)
          (mapDelete ws room0.socketToDeviceId)) S.rooms) := by
    unfold cleanupSocket
    rw [if_neg hrid]
    simp only [hget, hdid, hhas, if_pos]
    by_cases hempty : setDelete ws room0.sockets = [] <;> simp [hempty]
  have hinj : Function.Injective (fun c => Out.peerLeft c rid did) := by
    intro a b hab
    simpa using hab
  refine ⟨?_, ?_, ?_, ?_⟩
  · intro t ht htw hto
    rw [houts]
    have := List.count_map_of_injective
      ((setDelete ws room0.sockets).filter (fun c => decide (c ∉ S.closed)))
      (fun c => Out.peerLeft c rid did) hinj t
    rw [this]
    have hmem : t ∈ (setDelete ws room0.sockets).filter (fun c => decide (c ∉ S.closed)) := by
      rw [List.mem_filter]
      exact ⟨mem_setDelete.mpr ⟨ht, htw⟩, by simpa using hto⟩
    exact List.count_eq_one_of_mem
      (List.Nodup.filter _ (setDelete_nodup hnd)) hmem
  · intro t ht
    rw [houts]
    rw [List.count_map_of_injective _ _ hinj t]
    rw [List.count_eq_zero]
    intro hmem
    rw [List.mem_filter] at hmem
    obtain ⟨hm, hcl⟩ := hmem
    obtain ⟨hm0, hmw⟩ := mem_setDelete.mp hm
    rcases ht with h | h | h
    · exact h hm0
    · exact hmw h
    · simp only [decide_eq_true_eq] at hcl
      exact hcl h
  · intro o ho
    rw [houts] at ho
    simp only [List.mem_map] at ho
    obtain ⟨c, _, hc⟩ := ho
    exact ⟨c, hc.symm⟩
  · rw [hfst]
    split
    · rename_i hempty
      rw [iff_true_intro ((setDelete_eq_nil_iff hnd hws).mp hempty)]
      simp [mapHas, mapGet_mapDelete_self]
    · rename_i hne
      rw [iff_false_intro (fun h => hne ((setDelete_eq_nil_iff hnd hws).mpr h))]
      simp [mapHas, mapGet_mapSet_self]

/-- Witness for `cleanupSocket_peerLeft`: socket 0 (device d1) leaves a
two-socket room; socket 1 receives exactly one `peer-left d1` and the
room survives. -/
theorem cleanupSocket_peerLeft_witness :
    (cleanupSocket
        ⟨[("R", ⟨[("d1", ⟨"d1", "n", "c"⟩), ("d2", ⟨"d2", "n", "c"⟩)], [0, 1],
            [(0, "d1"), (1, "d2")]⟩)], [(0, "R"), (1, "R")], []⟩
        0 "R").2.count (Out.peerLeft 1 "R" "d1") = 1 ∧
    (mapHas "R" (cleanupSocket
        ⟨[("R", ⟨[("d1", ⟨"d1", "n", "c"⟩), ("d2", ⟨"d2", "n", "c"⟩)], [0, 1],
            [(0, "d1"), (1, "d2")]⟩)], [(0, "R"), (1, "R")], []⟩
        0 "R").1.rooms = false ↔ ([0, 1] : List Nat) = [0]) := by
  have h := cleanupSocket_peerLeft
    ⟨[("R", ⟨[("d1", ⟨"d1", "n", "c"⟩), ("d2", ⟨"d2", "n", "c"⟩)], [0, 1],
        [(0, "d1"), (1, "d2")]⟩)], [(0, "R"), (1, "R")], []⟩
    0 "R"
    ⟨[("d1", ⟨"d1", "n", "c"⟩), ("d2", ⟨"d2", "n", "c"⟩)], [0, 1],
        [(0, "d1"), (1, "d2")]⟩
    "d1" (by decide) (by decide) (by decide) (by decide) (by decide) (by decide)
  exact ⟨h.1 1 (by decide) (by decide) (by decide), h.2.2.2⟩

/-- Claim C4: processing a `signal` frame in a room: when the target
device is absent from the room's directory the sender gets exactly one
`signal-error TARGET_NOT_FOUND` frame and nothing is forwarded; when the
target is present, each socket mapped to it receives exactly one
forwarded `signal` frame, no other socket receives one, and no
`signal-error` is emitted. -/
theorem handleSignal_target (S : ServerState) (ws : Nat)
    (rid fromId toId stype payload : String) (room0 : RoomState)
    (hrid : rid ≠ "") (hget : mapGet rid S.rooms = some room0)
    (hto : toId ≠ "") (hfrom : fromId ≠ "") (hws : ws ∉ S.closed)
    (hstdOpen : ∀ p ∈ room0.socketToDeviceId, p.1 ∉ S.closed)
    (hstdKeys : (room0.socketToDeviceId.map Prod.fst).Nodup) :
    (mapHas toId room0.devices = false →
      handleSignal S ws rid fromId toId stype payload =
        [Out.signalError ws "TARGET_NOT_FOUND" toId stype]) ∧
    (mapHas toId room0.devices = true →
      (∀ s : Nat,
        (handleSignal S ws rid fromId toId stype payload).count
            (Out.signalOut s rid fromId toId stype payload) =
          if mapGet s room0.socketToDeviceId = some toId then 1 else 0) ∧
      (∀ o ∈ handleSignal S ws rid fromId toId stype payload,
        ∃ s, o = Out.signalOut s rid fromId toId stype payload)) := by
  have hactive : (if rid ≠ "" then rid else (mapGet ws S.connRoom).getD "") = rid := by
    rw [if_pos hrid]
  constructor
  · intro habs
    have hnone : mapGet toId room0.devices = none := by
      rcases h : mapGet toId room0.devices with _ | v
      · rfl
      · rw [mapHas, h] at habs; cases habs
    unfold handleSignal
    rw [hactive, if_neg hrid]
    simp only [hget, hnone]
    rw [if_neg (by simp [hto, hfrom])]
    rw [if_pos hws]
  · intro hpres
    obtain ⟨meta, hsome⟩ := Option.isSome_iff_exists.mp (by simpa [mapHas] using hpres)
    have houts : handleSignal S ws rid fromId toId stype payload =
        ((room0.socketToDeviceId.filter
            (fun p => decide (p.2 = toId ∧ p.1 ∉ S.closed))).map
          (fun p => Out.signalOut p.1 rid fromId toId stype payload)) := by
      unfold handleSignal
      rw [hactive, if_neg hrid]
      simp only [hget, hsome]
      rw [if_neg (by simp [hto, hfrom])]
    constructor
    · intro s
      rw [houts]
      have hmapmap :
          ((room0.socketToDeviceId.filter
              (fun p => decide (p.2 = toId ∧ p.1 ∉ S.closed))).map
            (fun p => Out.signalOut p.1 rid fromId toId stype payload)) =
          (((room0.socketToDeviceId.filter
              (fun p => decide (p.2 = toId ∧ p.1 ∉ S.closed))).map Prod.fst).map
            (fun c => Out.signalOut c rid fromId toId stype payload)) := by
        rw [List.map_map]
        rfl
      rw [hmapmap]
      have hinj : Function.Injective
          (fun c => Out.signalOut c rid fromId toId stype payload) := by
        intro a b hab
        simpa using hab
      rw [List.count_map_of_injective _ _ hinj s]
      split
      · rename_i hmap
        have hmem : (s, toId) ∈ room0.socketToDeviceId := mapGet_mem hmap
        have hmemf : (s, toId) ∈ room0.socketToDeviceId.filter
            (fun p => decide (p.2 = toId ∧ p.1 ∉ S.closed)) := by
          rw [List.mem_filter]
          refine ⟨hmem, by simpa using hstdOpen (s, toId) hmem⟩
        refine List.count_eq_one_of_mem ?_ (List.mem_map_of_mem Prod.fst hmemf)
        exact List.Nodup.sublist ((List.filter_sublist _).map Prod.fst) hstdKeys
      · rename_i hmap
        rw [List.count_eq_zero]
        intro hs
        obtain ⟨p, hp, hps⟩ := List.mem_map.mp hs
        rw [List.mem_filter] at hp
        obtain ⟨hp0, hpcond⟩ := hp
        simp only [decide_eq_true_eq] at hpcond
        have := mapGet_of_mem_keyNodup hstdKeys hp0
        rw [hps, hpcond.1] at this
        exact hmap this
    · intro o ho
      rw [houts] at ho
      obtain ⟨p, _, hp⟩ := List.mem_map.mp ho
      exact ⟨p.1, hp.symm⟩

/-- Witness for `handleSignal_target`: in a room containing d1 and d2,
a signal from d1 to the absent device `ghost` yields exactly the
`signal-error` frame, and a signal to d2 is forwarded exactly once to
socket 1. -/
theorem handleSignal_target_witness :
    handleSignal
        ⟨[("R", ⟨[("d1", ⟨"d1", "n", "c"⟩), ("d2", ⟨"d2", "n", "c"⟩)], [0, 1],
            [(0, "d1"), (1, "d2")]⟩)], [(0, "R"), (1, "R")], []⟩
        0 "R" "d1" "ghost" "offer" "x" =
      [Out.signalError 0 "TARGET_NOT_FOUND" "ghost" "offer"] ∧
    (handleSignal
        ⟨[("R", ⟨[("d1", ⟨"d1", "n", "c"⟩), ("d2", ⟨"d2", "n", "c"⟩)], [0, 1],
            [(0, "d1"), (1, "d2")]⟩)], [(0, "R"), (1, "R")], []⟩
        0 "R" "d1" "d2" "offer" "x").count
      (Out.signalOut 1 "R" "d1" "d2" "offer" "x") = 1 := by
  have h1 := handleSignal_target
    ⟨[("R", ⟨[("d1", ⟨"d1", "n", "c"⟩), ("d2", ⟨"d2", "n", "c"⟩)], [0, 1],
        [(0, "d1"), (1, "d2")]⟩)], [(0, "R"), (1, "R")], []⟩
    0 "R" "d1" "ghost" "offer" "x"
    ⟨[("d1", ⟨"d1", "n", "c"⟩), ("d2", ⟨"d2", "n", "c"⟩)], [0, 1],
        [(0, "d1"), (1, "d2")]⟩
    (by decide) (by decide) (by decide) (by decide) (by decide) (by decide) (by decide)
  have h2 := handleSignal_target
    ⟨[("R", ⟨[("d1", ⟨"d1", "n", "c"⟩), ("d2", ⟨"d2", "n", "c"⟩)], [0, 1],
        [(0, "d1"), (1, "d2")]⟩)], [(0, "R"), (1, "R")], []⟩
    0 "R" "d1" "d2" "offer" "x"
    ⟨[("d1", ⟨"d1", "n", "c"⟩), ("d2", ⟨"d2", "n", "c"⟩)], [0, 1],
        [(0, "d1"), (1, "d2")]⟩
    (by decide) (by decide) (by decide) (by decide) (by decide) (by decide) (by decide)
  refine ⟨h1.1 (by decide), ?_⟩
  have := (h2.2 (by decide)).1 1
  simpa using this

/-- Claim C10: a `signal` frame whose `from` field is falsy is silently
dropped: the relay emits nothing (in particular no `signal-error` and no
forwarded frame) and its state is unchanged, whatever the room and
target are. -/
theorem handleSignal_missing_fromId (S : ServerState) (ws : Nat)
    (rid toId stype payload : String) :
    handleSignal S ws rid "" toId stype payload = [] ∧
    (stepServer S (.message ws (.signal rid "" toId stype payload))).1 = S := by
  refine ⟨?_, rfl⟩
  unfold handleSignal
  by_cases h : (if rid ≠ "" then rid else (mapGet ws S.connRoom).getD "") = ""
  · rw [if_pos h]
  · rw [if_neg h]
    rcases hm : mapGet (if rid ≠ "" then rid else (mapGet ws S.connRoom).getD "")
        S.rooms with _ | room
    · rfl
    · show (if toId = "" ∨ "" = "" then [] else _) = ([] : List Out)
      rw [if_pos (Or.inr rfl)]

/-! ## Transfer engine: chunked send and incoming reassembly

Embedding of `useFileTransfer.js`.  A file is its byte list; a data
channel frame is a structured control frame (`file-meta`,
`file-complete`) or a raw binary chunk.  The sender loop
(`readSlice` / `reader.onload` / `sendChunk`) reads a 128 KiB slice,
sends it, advances `offset` and repeats while `offset < file.size`; note
the loop sends its first (possibly empty) slice even for an empty file.
The receiver (`channel.onmessage`) allocates an assembly on `file-meta`,
appends each binary frame to the first still-incomplete assembly of that
peer in `Map` insertion order, and on `file-complete` concatenates the
chunks into the delivered artifact and discards the assembly. -/

/-- Chunk size: 128 KiB. -/
def CHUNK_SIZE : Nat := 128 * 1024

/-- Frames travelling on a peer data channel. -/
inductive DCFrame where
  | fileMeta (id : Nat) (name : String) (size : Nat) (mimeType fromId : String)
  | chunk (data : List Nat)
  | fileComplete (id : Nat)
deriving DecidableEq, Repr

/-- The successive slices sent by the `readSlice` / `sendChunk` loop:
the slice at the current offset is always sent, and the loop continues
while the next offset is still short of the file size. -/
def sendChunks (l : List Nat) : List (List Nat) :=
  if h : CHUNK_SIZE < l.length then
    l.take CHUNK_SIZE :: sendChunks (l.drop CHUNK_SIZE)
  else [l.take CHUNK_SIZE]
termination_by l.length
decreasing_by simp [CHUNK_SIZE] at h ⊢; omega

/-- Everything the sender writes to an open channel for one file: one
metadata frame, the chunks in order, one completion frame. -/
def sendFrames (id : Nat) (name mimeType fromId : String) (file : List Nat) :
    List DCFrame :=
  DCFrame.fileMeta id name file.length mimeType fromId ::
    ((sendChunks file).map DCFrame.chunk ++ [DCFrame.fileComplete id])

/-- The receiver's per-transfer assembly (`incomingStateRef` values). -/
structure IncomingAssembly where
  peerId : String
  name : String
  size : Nat
  mimeType : String
  receivedBytes : Nat
  chunks : List (List Nat)
deriving DecidableEq, Repr

/-- The artifact delivered on `file-complete` (the downloaded blob). -/
structure Artifact where
  id : Nat
  name : String
  mimeType : String
  bytes : List Nat
deriving DecidableEq, Repr

/-- The binary-frame attribution loop: walk the incoming map in
insertion order and append the chunk to the first assembly of this peer
whose `receivedBytes` is still short of its announced size; drop the
chunk if there is none. -/
def attributeChunk (peerId : String) (data : List Nat) :
    List (Nat × IncomingAssembly) → List (Nat × IncomingAssembly)
  | [] => []
  | (id, a) :: rest =>
    if a.peerId = peerId ∧ a.receivedBytes < a.size then
      (id, { a with
        chunks := a.chunks ++ [data],
        receivedBytes := a.receivedBytes + data.length }) :: rest
    else (id, a) :: attributeChunk peerId data rest

/-- One `channel.onmessage` step of the receiver for the channel of
`peerId`: returns the updated incoming map and the artifact delivered,
if any. -/
def onMessage (peerId : String) (st : List (Nat × IncomingAssembly)) :
    DCFrame → List (Nat × IncomingAssembly) × Option Artifact
  | .fileMeta id name size mimeType _ =>
      (mapSet id ⟨peerId, name, size, mimeType, 0, []⟩ st, none)
  | .fileComplete id =>
      match mapGet id st with
      | none => (st, none)
      | some a => (mapDelete id st, some ⟨id, a.name, a.mimeType, a.chunks.flatten⟩)
  | .chunk data => (attributeChunk peerId data st, none)

/-- Run the receiver over a frame list, collecting delivered artifacts. -/
def runRecv (peerId : String) (st : List (Nat × IncomingAssembly)) :
    List DCFrame → List (Nat × IncomingAssembly) × List Artifact
  | [] => (st, [])
  | f :: fs =>
      ((runRecv peerId (onMessage peerId st f).1 fs).1,
       (onMessage peerId st f).2.toList ++ (runRecv peerId (onMessage peerId st f).1 fs).2)

theorem attributeChunk_cons_pos (peerId nm : String) (data : List Nat) (id : Nat)
    (sz : Nat) (mt : String) (r : Nat) (cs : List (List Nat))
    (rest : List (Nat × IncomingAssembly)) (h2 : r < sz) :
    attributeChunk peerId data ((id, ⟨peerId, nm, sz, mt, r, cs⟩) :: rest) =
      (id, ⟨peerId, nm, sz, mt, r + data.length, cs ++ [data]⟩) :: rest := by
  unfold attributeChunk
  rw [if_pos ⟨rfl, h2⟩]

theorem attributeChunk_cons_neg (peerId : String) (data : List Nat) (id : Nat)
    (a : IncomingAssembly) (rest : List (Nat × IncomingAssembly))
    (h : ¬ (a.peerId = peerId ∧ a.receivedBytes < a.size)) :
    attributeChunk peerId data ((id, a) :: rest) =
      (id, a) :: attributeChunk peerId data rest := by
  conv_lhs => unfold attributeChunk
  rw [if_neg h]

theorem flatten_sendChunks (l : List Nat) : (sendChunks l).flatten = l := by
  induction l using sendChunks.induct with
  | case1 l h ih =>
      rw [sendChunks]
      rw [dif_pos h]
      simp only [List.flatten_cons, ih]
      exact List.take_append_drop _ l
  | case2 l h =>
      rw [sendChunks]
      rw [dif_neg h]
      simp only [List.flatten_cons, List.flatten_nil, List.append_nil]
      exact List.take_of_length_le (by omega)

theorem runRecv_append (peerId : String) (st : List (Nat × IncomingAssembly))
    (xs ys : List DCFrame) :
    runRecv peerId st (xs ++ ys) =
      ((runRecv peerId (runRecv peerId st xs).1 ys).1,
       (runRecv peerId st xs).2 ++ (runRecv peerId (runRecv peerId st xs).1 ys).2) := by
  induction xs generalizing st with
  | nil => simp [runRecv]
  | cons f fs ih =>
      simp only [List.cons_append, runRecv, List.append_eq]
      rw [ih]
      simp [List.append_assoc]

theorem runRecv_sendChunks (peerId name mimeType : String) (id : Nat)
    (l : List Nat) : ∀ (r : Nat) (cs : List (List Nat)) (s : Nat), s = r + l.length →
    runRecv peerId [(id, ⟨peerId, name, s, mimeType, r, cs⟩)]
        ((sendChunks l).map DCFrame.chunk) =
      ([(id, ⟨peerId, name, s, mimeType, r + l.length,
          cs ++ (if l.length = 0 then [] else sendChunks l)⟩)], []) := by
  induction l using sendChunks.induct with
  | case1 l h ih =>
      intro r cs s hs
      have hunfold : sendChunks l =
          l.take CHUNK_SIZE :: sendChunks (l.drop CHUNK_SIZE) := by
        rw [sendChunks]
        rw [dif_pos h]
      have hlen : (l.take CHUNK_SIZE).length = CHUNK_SIZE := by
        rw [List.length_take]; omega
      have hdrop : (l.drop CHUNK_SIZE).length = l.length - CHUNK_SIZE :=
        List.length_drop _ _
      rw [hunfold]
      simp only [List.map_cons, runRecv, onMessage]
      rw [attributeChunk_cons_pos peerId name (l.take CHUNK_SIZE) id s mimeType r cs
        [] (by omega)]
      simp only [hlen]
      rw [ih (r + CHUNK_SIZE) (cs ++ [l.take CHUNK_SIZE]) s (by rw [hdrop]; omega)]
      rw [if_neg (show ¬ (l.drop CHUNK_SIZE).length = 0 by rw [hdrop]; omega)]
      rw [if_neg (show ¬ l.length = 0 by omega)]
      have hsz : r + CHUNK_SIZE + (l.drop CHUNK_SIZE).length = r + l.length := by
        rw [hdrop]; omega
      rw [hsz]
      simp [List.append_assoc]
  | case2 l h =>
      intro r cs s hs
      have hunfold : sendChunks l = [l.take CHUNK_SIZE] := by
        rw [sendChunks]
        rw [dif_neg h]
      have htake : (l.take CHUNK_SIZE).length = l.length := by
        rw [List.length_take]; omega
      rw [hunfold]
      simp only [List.map_cons, List.map_nil, runRecv, onMessage]
      by_cases hl : l.length = 0
      · rw [attributeChunk_cons_neg peerId (l.take CHUNK_SIZE) id
          ⟨peerId, name, s, mimeType, r, cs⟩ []
          (by rintro ⟨h1, h2⟩; simp only at h2; omega)]
        rw [if_pos hl]
        simp [hl, attributeChunk]
      · rw [attributeChunk_cons_pos peerId name (l.take CHUNK_SIZE) id s mimeType r cs
          [] (by omega)]
        simp only [htake]
        rw [if_neg hl]
        simp

/-- Claim C3: the chunking round trip.  For any file (any size,
including zero and sizes not a multiple of the 128 KiB chunk size),
sending the metadata frame, the chunks in order and the completion frame
over an open channel and running the receiver on them delivers exactly
one artifact whose bytes are exactly the original file (hence the same
size), and the assembly is discarded. -/
theorem sendFrames_roundTrip (peerId : String) (id : Nat)
    (name mimeType fromId : String) (file : List Nat) :
    runRecv peerId [] (sendFrames id name mimeType fromId file) =
      ([], [⟨id, name, mimeType, file⟩]) := by
  rw [sendFrames]
  simp only [runRecv, onMessage, mapSet, Option.toList]
  rw [runRecv_append]
  rw [runRecv_sendChunks peerId name mimeType id file 0 [] file.length
    (by omega)]
  simp only [runRecv, onMessage, mapGet_cons, if_pos rfl, Option.toList]
  by_cases hl : file.length = 0
  · rw [if_pos hl]
    have hfile : file = [] := List.eq_nil_of_length_eq_zero hl
    simp [mapDelete, hfile]
  · rw [if_neg hl]
    simp [mapDelete, flatten_sendChunks]

/-- Claim C6, counterexample: with two still-incomplete transfers
announced by the same peer (ids 1 then 2, so id 2 is the most recently
announced), a binary chunk is appended to the assembly of id 1 — the
first in `Map` insertion order — while the most recently announced
assembly stays empty, contradicting the claim that the chunk is
attributed to the most recently announced still-incomplete transfer. -/
theorem chunk_attribution_cex :
    (runRecv "p" []
        [DCFrame.fileMeta 1 "f1" 2 "mt" "q", DCFrame.fileMeta 2 "f2" 2 "mt" "q",
         DCFrame.chunk [7]]).1 =
      [(1, ⟨"p", "f1", 2, "mt", 1, [[7]]⟩), (2, ⟨"p", "f2", 2, "mt", 0, []⟩)] := by
  decide

/-- Claim C6 (amended): a received binary chunk frame is appended to the
earliest announced (first in `Map` insertion order) still-incomplete
assembly for that peer; every entry announced before it that is not an
incomplete assembly of this peer, and every entry after it, is left
unchanged. -/
theorem attributeChunk_earliest (peerId : String) (data : List Nat)
    (pre post : List (Nat × IncomingAssembly)) (id : Nat) (a : IncomingAssembly)
    (hpre : ∀ q ∈ pre, ¬ (q.2.peerId = peerId ∧ q.2.receivedBytes < q.2.size))
    (ha1 : a.peerId = peerId) (ha2 : a.receivedBytes < a.size) :
    attributeChunk peerId data (pre ++ (id, a) :: post) =
      pre ++ (id, { a with
        chunks := a.chunks ++ [data],
        receivedBytes := a.receivedBytes + data.length }) :: post := by
  induction pre with
  | nil =>
      simp only [List.nil_append]
      conv_lhs => unfold attributeChunk
      rw [if_pos ⟨ha1, ha2⟩]
  | cons q rest ih =>
      obtain ⟨qid, qa⟩ := q
      rw [List.cons_append,
        attributeChunk_cons_neg peerId data qid qa _
          (hpre (qid, qa) (List.mem_cons_self _ _)),
        ih (fun q hq => hpre q (List.mem_cons_of_mem _ hq)),
        List.cons_append]

/-- Witness for `attributeChunk_earliest`: the first assembly of peer p
is already complete, so the chunk lands in the second one. -/
theorem attributeChunk_earliest_witness :
    attributeChunk "p" [9]
        [(1, ⟨"p", "f1", 1, "mt", 1, [[5]]⟩), (2, ⟨"p", "f2", 2, "mt", 0, []⟩)] =
      [(1, ⟨"p", "f1", 1, "mt", 1, [[5]]⟩), (2, ⟨"p", "f2", 2, "mt", 1, [[9]]⟩)] :=
  (attributeChunk_earliest "p" [9] [(1, ⟨"p", "f1", 1, "mt", 1, [[5]]⟩)] []
      2 ⟨"p", "f2", 2, "mt", 0, []⟩ (by decide) rfl (by decide)).trans (by decide)

/-! ## Backpressure (claim C8) -/

/-- The high-water mark checked by `sendChunk`: 4 MiB. -/
def bufferedHighWater : Nat := 4 * 1024 * 1024

/-- Observable steps of one `sendChunk` invocation: a 50 ms re-poll
(`setTimeout(sendChunk, 50)`) or the actual `channel.send(buffer)`. -/
inductive SendPollEv where
  | wait50
  | sentChunk
deriving DecidableEq, Repr

/-- One chunk's backpressure loop, driven by the successive readings of
`channel.bufferedAmount` at each poll: while the reading exceeds the
high-water mark the sender only schedules a 50 ms re-poll; at the first
reading not above the mark it sends the chunk. -/
def sendChunkPoll : List Nat → List SendPollEv
  | [] => []
  | b :: rest =>
      if bufferedHighWater < b then SendPollEv.wait50 :: sendChunkPoll rest
      else [SendPollEv.sentChunk]

/-- Claim C8, counterexample: the buffered amount exceeds the 4 MiB mark
on the first poll, and the chunk is then sent at a reading of exactly
4 MiB — which is not below the mark — contradicting the claim that no
chunk is sent until the buffered amount drops back below the mark. -/
theorem backpressure_at_mark_cex :
    sendChunkPoll [4 * 1024 * 1024 + 1, 4 * 1024 * 1024] =
        [SendPollEv.wait50, SendPollEv.sentChunk] ∧
      ¬ (4 * 1024 * 1024 < 4 * 1024 * 1024) := by
  decide

/-- Claim C8 (amended): while the buffered amount strictly exceeds the
4 MiB high-water mark no chunk is sent and the sender re-polls every
50 ms; the chunk is sent at the first poll whose reading is at or below
the mark, and never if every reading stays above it. -/
theorem sendChunkPoll_backpressure (obs : List Nat) :
    sendChunkPoll obs =
      List.replicate
          (obs.takeWhile (fun b => decide (bufferedHighWater < b))).length
          SendPollEv.wait50 ++
        (if obs.all (fun b => decide (bufferedHighWater < b)) then []
         else [SendPollEv.sentChunk]) := by
  induction obs with
  | nil => rfl
  | cons b rest ih =>
      by_cases hb : bufferedHighWater < b
      · simp [sendChunkPoll, hb, ih, List.replicate_succ]
      · simp [sendChunkPoll, hb]

/-! ## Peer orchestrator decisions (claims C7 and C9) -/

/-- The initiator decision of the per-peer connection effect:
`deviceId < peerId`, JavaScript string comparison. -/
def iAmInitiator (deviceId peerId : String) : Bool :=
  decide (deviceId < peerId)

/-- Claim C7: for distinct device ids the initiator choice is determined
solely by lexicographic comparison — the smaller id initiates — and it
is antisymmetric: exactly one of the two sides initiates towards the
other. -/
theorem initiator_tiebreak (A B : String) (h : A ≠ B) :
    (iAmInitiator A B = true ↔ A < B) ∧
      (iAmInitiator A B = true ↔ ¬ iAmInitiator B A = true) := by
  refine ⟨by simp [iAmInitiator], ?_⟩
  simp only [iAmInitiator, decide_eq_true_eq]
  constructor
  · intro hab
    exact not_lt.mpr hab.le
  · intro hba
    exact lt_of_le_of_ne (not_lt.mp hba) h

/-- Witness for `initiator_tiebreak` at the pair alpha / beta. -/
theorem initiator_tiebreak_witness :
    (iAmInitiator "alpha" "beta" = true ↔ ("alpha" : String) < "beta") ∧
      (iAmInitiator "alpha" "beta" = true ↔ ¬ iAmInitiator "beta" "alpha" = true) :=
  ⟨(initiator_tiebreak "alpha" "beta" (by decide)).1,
   (initiator_tiebreak "alpha" "beta" (by decide)).2⟩

/-- A WebRTC data channel handle; `cid` stands for object identity. -/
structure Channel where
  cid : Nat
  readyState : String
deriving DecidableEq, Repr

/-- The orchestrator state touched by `handleDataChannelReady`. -/
structure PeersState where
  dataChannels : List (String × Channel)
  channelsVersion : Nat
  webrtcStateByPeer : List (String × String)
deriving DecidableEq, Repr

/-- Embedding of `handleDataChannelReady`: if a channel is already
registered for the peer, return without touching anything; otherwise
register the channel, bump the channels version and record the
channel's ready state for the peer. -/
def handleDataChannelReady (st : PeersState) (peerId : String) (ch : Channel) :
    PeersState :=
  if mapHas peerId st.dataChannels then st
  else
    { dataChannels := mapSet peerId ch st.dataChannels,
      channelsVersion := st.channelsVersion + 1,
      webrtcStateByPeer := mapSet peerId ch.readyState st.webrtcStateByPeer }

/-- Claim C9: a channel-ready notification for a peer that already has a
registered data channel is ignored — the whole state, in particular the
registered channel, is unchanged — and registration keeps at most one
channel per peer (distinct keys stay distinct). -/
theorem handleDataChannelReady_no_overwrite (st : PeersState) (peerId : String)
    (ch : Channel) :
    (mapHas peerId st.dataChannels = true →
      handleDataChannelReady st peerId ch = st) ∧
    ((st.dataChannels.map Prod.fst).Nodup →
      ((handleDataChannelReady st peerId ch).dataChannels.map Prod.fst).Nodup) := by
  constructor
  · intro h
    unfold handleDataChannelReady
    rw [if_pos h]
  · intro h
    unfold handleDataChannelReady
    split
    · exact h
    · exact keys_mapSet_nodup _ h

/-- Witness for `handleDataChannelReady_no_overwrite`: peer p already
has channel 1 registered; the notification for channel 2 changes
nothing. -/
theorem handleDataChannelReady_no_overwrite_witness :
    handleDataChannelReady ⟨[("p", ⟨1, "open"⟩)], 3, [("p", "open")]⟩ "p"
        ⟨2, "connecting"⟩ =
      ⟨[("p", ⟨1, "open"⟩)], 3, [("p", "open")]⟩ :=
  (handleDataChannelReady_no_overwrite ⟨[("p", ⟨1, "open"⟩)], 3, [("p", "open")]⟩
      "p" ⟨2, "connecting"⟩).1 (by decide)

/-! ## Pending sends and the retry reconciliation (claim C1)

Embedding of the queueing part of `sendFileToPeerInternal` and of the
pending-files reconciliation effect.  A `File` object is identified by
`fid` (JavaScript object identity); transfer ids are numbers produced by
the incrementing counter of `createTransferId`.  The asynchronous chunk
streaming that follows a dispatch (FileReader callbacks) is outside this
model: a dispatch is recorded as the synchronously sent `file-meta`
frame together with the synchronous transfer-list update.  The splice
that removes a dispatched entry compares JavaScript object identity,
modelled by the entry's transfer id (unique by construction). -/

/-- A File handle: identity, name and size. -/
structure FileM where
  fid : Nat
  name : String
  size : Nat
deriving DecidableEq, Repr

/-- One entry of the per-peer pending queue. -/
structure PendingFile where
  file : FileM
  transferId : Nat
  retries : Nat
deriving DecidableEq, Repr

/-- One entry of the transfers list (progress and speed omitted). -/
structure TransferM where
  id : Nat
  peerId : String
  name : String
  size : Nat
  status : String
deriving DecidableEq, Repr

/-- The transfer engine's state: the pending-files map, the transfers
list and the `createTransferId` counter. -/
structure EngineState where
  pendingFiles : List (String × List PendingFile)
  transfers : List TransferM
  txCounter : Nat
deriving DecidableEq, Repr

/-- Synchronous effects recorded during a dispatch. -/
inductive TransferEv where
  | metaSent (peerId : String) (transferId : Nat) (name : String) (size : Nat)
deriving DecidableEq, Repr

/-- The retry path's `findIndex` predicate:
`p.file === file || p.file.name === file.name`. -/
def pendingMatch (file : FileM) (p : PendingFile) : Bool :=
  p.file.fid == file.fid || p.file.name == file.name

/-- Find the first pending entry matching the file, bump its retry
count in place and report its transfer id (the retry path's
`findIndex` / `retries += 1` / `existingTransferId`). -/
def bumpRetries (file : FileM) : List PendingFile → List PendingFile × Option Nat
  | [] => ([], none)
  | p :: rest =>
      if pendingMatch file p then
        ({ p with retries := p.retries + 1 } :: rest, some p.transferId)
      else
        (p :: (bumpRetries file rest).1, (bumpRetries file rest).2)

/-- `setTransfers(prev.map(...))`: set the status of every transfer with
the given id. -/
def setTransfersStatus (tid : Nat) (status : String) (ts : List TransferM) :
    List TransferM :=
  ts.map (fun t => if t.id = tid then { t with status := status } else t)

/-- Embedding of `sendFileToPeerInternal` up to its synchronous effects:
queue the file (with a fresh transfer id and `retries = 0`) when the
channel is missing or not open and this is not a retry; on an open
channel, send the metadata frame under the existing transfer id of the
first matching pending entry — bumping its retry count — or under a
fresh id, and update the transfers list accordingly. -/
def sendFileToPeerInternal (channels : List (String × Channel)) (st : EngineState)
    (peerId : String) (file : FileM) (isRetry : Bool) :
    EngineState × List TransferEv :=
  let queued : EngineState × List TransferEv :=
    if isRetry then (st, [])
    else
      let tid := st.txCounter + 1
      let pend := (mapGet peerId st.pendingFiles).getD []
      ({ pendingFiles := mapSet peerId (pend ++ [⟨file, tid, 0⟩]) st.pendingFiles,
         transfers := ⟨tid, peerId, file.name, file.size, "queued"⟩ :: st.transfers,
         txCounter := tid }, [])
  match mapGet peerId channels with
  | none => queued
  | some ch =>
    if ch.readyState = "open" then
      if isRetry then
        match mapGet peerId st.pendingFiles with
        | some pend =>
          match bumpRetries file pend with
          | (pend', some tid) =>
              ({ pendingFiles := mapSet peerId pend' st.pendingFiles,
                 transfers := setTransfersStatus tid "in-progress" st.transfers,
                 txCounter := st.txCounter },
               [TransferEv.metaSent peerId tid file.name file.size])
          | (pend', none) =>
              let tid := st.txCounter + 1
              ({ pendingFiles := mapSet peerId pend' st.pendingFiles,
                 transfers :=
                   ⟨tid, peerId, file.name, file.size, "in-progress"⟩ :: st.transfers,
                 txCounter := tid },
               [TransferEv.metaSent peerId tid file.name file.size])
        | none =>
            let tid := st.txCounter + 1
            ({ st with
               transfers :=
                 ⟨tid, peerId, file.name, file.size, "in-progress"⟩ :: st.transfers,
               txCounter := tid },
             [TransferEv.metaSent peerId tid file.name file.size])
      else
        let tid := st.txCounter + 1
        ({ st with
           transfers :=
             ⟨tid, peerId, file.name, file.size, "in-progress"⟩ :: st.transfers,
           txCounter := tid },
         [TransferEv.metaSent peerId tid file.name file.size])
    else queued

/-- Dispatch the retry sends of the reconciliation pass in order
(`filesToSend.forEach(({file}) => sendFileToPeerInternal(peerId, file, true))`). -/
def dispatchAll (channels : List (String × Channel)) (peerId : String) :
    List FileM → EngineState → EngineState × List TransferEv
  | [], st => (st, [])
  | f :: fs, st =>
      ((dispatchAll channels peerId fs
          (sendFileToPeerInternal channels st peerId f true).1).1,
       (sendFileToPeerInternal channels st peerId f true).2 ++
         (dispatchAll channels peerId fs
           (sendFileToPeerInternal channels st peerId f true).1).2)

/-- The body of one peer's reconciliation once its channel is known to
be open: mark the entries whose retry count has reached 5 as failed,
dispatch the rest, splice the dispatched entries out of the (current)
queue and drop the peer's key once its queue is empty. -/
def reconcilePeerOpen (channels : List (String × Channel)) (peerId : String)
    (pendingFiles : List PendingFile) (st : EngineState) :
    EngineState × List TransferEv :=
  let filesToSend := pendingFiles.filter (fun p => decide (p.retries < 5))
  let failedIds :=
    (pendingFiles.filter (fun p => !decide (p.retries < 5))).map
      (fun p => p.transferId)
  let failedTransfers :=
    failedIds.foldl (fun ts tid => setTransfersStatus tid "failed" ts)
      st.transfers
  let st1 := { st with transfers := failedTransfers }
  let d := dispatchAll channels peerId (filesToSend.map (fun p => p.file)) st1
  let current := (mapGet peerId d.1.pendingFiles).getD []
  let sentIds := filesToSend.map (fun p => p.transferId)
  let remaining := current.filter (fun p => !(sentIds.contains p.transferId))
  ({ d.1 with pendingFiles :=
      if remaining = [] then mapDelete peerId d.1.pendingFiles
      else mapSet peerId remaining d.1.pendingFiles }, d.2)

/-- One peer's reconciliation: nothing happens unless the peer has a
queue and an open channel. -/
def reconcilePeer (channels : List (String × Channel)) (peerId : String)
    (st : EngineState) : EngineState × List TransferEv :=
  match mapGet peerId st.pendingFiles with
  | none => (st, [])
  | some pendingFiles =>
    match mapGet peerId channels with
    | none => (st, [])
    | some ch =>
      if ch.readyState = "open" then
        reconcilePeerOpen channels peerId pendingFiles st
      else (st, [])

/-- Run the reconciliation over a list of peer keys in order. -/
def reconcileKeys (channels : List (String × Channel)) :
    List String → EngineState → EngineState × List TransferEv
  | [], st => (st, [])
  | k :: ks, st =>
      ((reconcileKeys channels ks (reconcilePeer channels k st).1).1,
       (reconcilePeer channels k st).2 ++
         (reconcileKeys channels ks (reconcilePeer channels k st).1).2)

/-- One run of the pending-files reconciliation effect: visit every
peer key of the pending map. -/
def reconcileStep (channels : List (String × Channel)) (st : EngineState) :
    EngineState × List TransferEv :=
  reconcileKeys channels (st.pendingFiles.map Prod.fst) st

def pendingShape (p : PendingFile) : FileM × Nat := (p.file, p.transferId)

theorem bumpRetries_shape (f : FileM) (l : List PendingFile) :
    ((bumpRetries f l).1.map pendingShape) = l.map pendingShape := by
  induction l with
  | nil => rfl
  | cons p rest ih =>
      unfold bumpRetries
      by_cases h : pendingMatch f p
      · simp [h, pendingShape]
      · simp [h, pendingShape, ih]

theorem bumpRetries_found (f : FileM) (l : List PendingFile) (tid : Nat)
    (h : (bumpRetries f l).2 = some tid) :
    ∃ q ∈ l, pendingMatch f q = true ∧ q.transferId = tid := by
  induction l with
  | nil => simp [bumpRetries] at h
  | cons p rest ih =>
      unfold bumpRetries at h
      by_cases hm : pendingMatch f p
      · rw [if_pos hm] at h
        simp only [Option.some.injEq] at h
        exact ⟨p, List.mem_cons_self _ _, hm, h⟩
      · rw [if_neg hm] at h
        obtain ⟨q, hq, hqm, hqt⟩ := ih h
        exact ⟨q, List.mem_cons_of_mem _ hq, hqm, hqt⟩

theorem bumpRetries_any (f : FileM) (l : List PendingFile)
    (h : l.any (pendingMatch f) = true) :
    ∃ tid, (bumpRetries f l).2 = some tid := by
  induction l with
  | nil => simp at h
  | cons p rest ih =>
      unfold bumpRetries
      by_cases hm : pendingMatch f p
      · exact ⟨p.transferId, by rw [if_pos hm]⟩
      · simp only [List.any_cons, hm, Bool.false_or] at h
        obtain ⟨tid, htid⟩ := ih h
        exact ⟨tid, by rw [if_neg hm]; exact htid⟩

theorem bumpRetries_preserves (f : FileM) {p : PendingFile} {l : List PendingFile}
    (hp : p ∈ l) (hm : pendingMatch f p = false) : p ∈ (bumpRetries f l).1 := by
  induction l with
  | nil => cases hp
  | cons q rest ih =>
      unfold bumpRetries
      by_cases hq : pendingMatch f q
      · rcases List.mem_cons.mp hp with rfl | h
        · rw [hq] at hm; cases hm
        · rw [if_pos hq]
          exact List.mem_cons_of_mem _ h
      · rw [if_neg hq]
        rcases List.mem_cons.mp hp with rfl | h
        · exact List.mem_cons_self _ _
        · exact List.mem_cons_of_mem _ (ih h)

theorem eq_of_nodup_map {α β : Type} {f : α → β} {l : List α}
    (hn : (l.map f).Nodup) {p q : α} (hp : p ∈ l) (hq : q ∈ l) (h : f p = f q) :
    p = q := by
  induction l with
  | nil => cases hp
  | cons r rest ih =>
      simp only [List.map_cons, List.nodup_cons] at hn
      rcases List.mem_cons.mp hp with h₁ | h₁ <;> rcases List.mem_cons.mp hq with h₂ | h₂
      · exact h₁.trans h₂.symm
      · subst h₁
        exact absurd (h ▸ List.mem_map_of_mem f h₂) hn.1
      · subst h₂
        exact absurd (h ▸ List.mem_map_of_mem f h₁) hn.1
      · exact ih hn.2 h₁ h₂

theorem pendingMatch_congr (f : FileM) {q q' : PendingFile}
    (h : pendingShape q = pendingShape q') : pendingMatch f q = pendingMatch f q' := by
  have hf : q.file = q'.file := congrArg Prod.fst h
  unfold pendingMatch
  rw [hf]

theorem any_pendingMatch_congr (f : FileM) {l l' : List PendingFile}
    (h : l.map pendingShape = l'.map pendingShape) :
    l.any (pendingMatch f) = l'.any (pendingMatch f) := by
  induction l generalizing l' with
  | nil =>
      cases l' with
      | nil => rfl
      | cons p' rest' => simp at h
  | cons p rest ih =>
      cases l' with
      | nil => simp at h
      | cons p' rest' =>
          simp only [List.map_cons, List.cons.injEq] at h
          simp only [List.any_cons, pendingMatch_congr f h.1, ih h.2]

theorem tids_eq_of_shape {l l' : List PendingFile}
    (h : l.map pendingShape = l'.map pendingShape) :
    l.map (fun q => q.transferId) = l'.map (fun q => q.transferId) := by
  calc l.map (fun q => q.transferId) = (l.map pendingShape).map Prod.snd := by
        rw [List.map_map]; rfl
    _ = (l'.map pendingShape).map Prod.snd := by rw [h]
    _ = l'.map (fun q => q.transferId) := by rw [List.map_map]; rfl

theorem setTransfersStatus_marks (tid : Nat) (ts : List TransferM) :
    ∀ t ∈ setTransfersStatus tid "failed" ts, t.id = tid → t.status = "failed" := by
  intro t ht htid
  obtain ⟨t₀, ht₀, rfl⟩ := List.mem_map.mp ht
  by_cases h0 : t₀.id = tid
  · rw [if_pos h0]
  · rw [if_neg h0] at htid ⊢
    exact absurd htid h0

theorem setTransfersStatus_preserves {i tid : Nat} {s : String} {ts : List TransferM}
    (hne : i ≠ tid)
    (h : ∀ t ∈ ts, t.id = tid → t.status = "failed") :
    ∀ t ∈ setTransfersStatus i s ts, t.id = tid → t.status = "failed" := by
  intro t ht htid
  obtain ⟨t₀, ht₀, rfl⟩ := List.mem_map.mp ht
  by_cases h0 : t₀.id = i
  · rw [if_pos h0] at htid ⊢
    have ht' : t₀.id = tid := htid
    exact absurd (h0.symm.trans ht') hne
  · rw [if_neg h0] at htid ⊢
    exact h t₀ ht₀ htid

theorem setTransfersStatus_failed_preserves {i tid : Nat} {ts : List TransferM}
    (h : ∀ t ∈ ts, t.id = tid → t.status = "failed") :
    ∀ t ∈ setTransfersStatus i "failed" ts, t.id = tid → t.status = "failed" := by
  by_cases he : i = tid
  · subst he
    exact setTransfersStatus_marks i ts
  · exact setTransfersStatus_preserves he h

theorem foldl_setFailed_marks (ids : List Nat) (tid : Nat) :
    ∀ ts : List TransferM,
      (tid ∈ ids ∨ ∀ t ∈ ts, t.id = tid → t.status = "failed") →
      ∀ t ∈ ids.foldl (fun acc i => setTransfersStatus i "failed" acc) ts,
        t.id = tid → t.status = "failed" := by
  induction ids with
  | nil =>
      intro ts h
      rcases h with h | h
      · cases h
      · exact h
  | cons i rest ih =>
      intro ts h
      simp only [List.foldl_cons]
      apply ih
      rcases h with h | h
      · rcases List.mem_cons.mp h with rfl | h'
        · right; exact setTransfersStatus_marks tid ts
        · left; exact h'
      · right
        exact setTransfersStatus_failed_preserves h

theorem sendFileToPeerInternal_retry_open {channels : List (String × Channel)}
    {st : EngineState} {peerId : String} {file : FileM} {ch : Channel}
    {cur pend' : List PendingFile} {tid : Nat}
    (hch : mapGet peerId channels = some ch) (hopen : ch.readyState = "open")
    (hcur : mapGet peerId st.pendingFiles = some cur)
    (hb : bumpRetries file cur = (pend', some tid)) :
    sendFileToPeerInternal channels st peerId file true =
      ({ pendingFiles := mapSet peerId pend' st.pendingFiles,
         transfers := setTransfersStatus tid "in-progress" st.transfers,
         txCounter := st.txCounter },
       [TransferEv.metaSent peerId tid file.name file.size]) := by
  unfold sendFileToPeerInternal
  simp only [hch, hcur, hb, hopen, if_true]



theorem dispatchAll_protected
    (channels : List (String × Channel)) (peerId : String) (ch : Channel)
    (hch : mapGet peerId channels = some ch) (hopen : ch.readyState = "open")
    (p : PendingFile) (cur₀ : List PendingFile)
    (htids : (cur₀.map (fun q => q.transferId)).Nodup) :
    ∀ files : List FileM,
      (∀ f ∈ files, cur₀.any (pendingMatch f) = true) →
      (∀ f ∈ files, pendingMatch f p = false) →
      ∀ (st : EngineState) (cur : List PendingFile),
        mapGet peerId st.pendingFiles = some cur →
        cur.map pendingShape = cur₀.map pendingShape →
        p ∈ cur →
        (∀ t ∈ st.transfers, t.id = p.transferId → t.status = "failed") →
        ∃ cur₂,
          mapGet peerId (dispatchAll channels peerId files st).1.pendingFiles =
              some cur₂ ∧
          cur₂.map pendingShape = cur₀.map pendingShape ∧
          p ∈ cur₂ ∧
          (∀ t ∈ (dispatchAll channels peerId files st).1.transfers,
              t.id = p.transferId → t.status = "failed") ∧
          (∀ (nm : String) (sz : Nat),
              TransferEv.metaSent peerId p.transferId nm sz ∉
                (dispatchAll channels peerId files st).2) := by
  intro files
  induction files with
  | nil =>
      intro _ _ st cur hcur hshape hp hfail
      exact ⟨cur, hcur, hshape, hp, hfail, by intro nm sz h; cases h⟩
  | cons f fs ih =>
      intro hmatch hnomatch st cur hcur hshape hp hfail
      have hany : cur.any (pendingMatch f) = true := by
        rw [any_pendingMatch_congr f hshape]
        exact hmatch f (List.mem_cons_self _ _)
      obtain ⟨tid', htid'⟩ := bumpRetries_any f cur hany
      have hbpair : bumpRetries f cur = ((bumpRetries f cur).1, some tid') := by
        rw [← htid']
      obtain ⟨q', hq'mem, hq'match, hq'tid⟩ := bumpRetries_found f cur tid' htid'
      have hpnomatch : pendingMatch f p = false := hnomatch f (List.mem_cons_self _ _)
      have hqp : q' ≠ p := by
        intro he
        rw [he, hpnomatch] at hq'match
        cases hq'match
      have htidcur : (cur.map (fun q => q.transferId)).Nodup := by
        rw [tids_eq_of_shape hshape]
        exact htids
      have htidne : tid' ≠ p.transferId := by
        intro he
        exact hqp (eq_of_nodup_map htidcur hq'mem hp (by rw [hq'tid, he]))
      have hsend := sendFileToPeerInternal_retry_open hch hopen hcur hbpair
      have hcur' : mapGet peerId
          (mapSet peerId (bumpRetries f cur).1 st.pendingFiles) =
            some (bumpRetries f cur).1 := mapGet_mapSet_self ..
      have hshape' : (bumpRetries f cur).1.map pendingShape = cur₀.map pendingShape :=
        (bumpRetries_shape f cur).trans hshape
      have hp' : p ∈ (bumpRetries f cur).1 := bumpRetries_preserves f hp hpnomatch
      have hfail' : ∀ t ∈ setTransfersStatus tid' "in-progress" st.transfers,
          t.id = p.transferId → t.status = "failed" :=
        setTransfersStatus_preserves htidne hfail
      obtain ⟨cur₂, hc1, hc2, hc3, hc4, hc5⟩ :=
        ih (fun g hg => hmatch g (List.mem_cons_of_mem _ hg))
          (fun g hg => hnomatch g (List.mem_cons_of_mem _ hg))
          { pendingFiles := mapSet peerId (bumpRetries f cur).1 st.pendingFiles,
            transfers := setTransfersStatus tid' "in-progress" st.transfers,
            txCounter := st.txCounter }
          (bumpRetries f cur).1 hcur' hshape' hp' hfail'
      refine ⟨cur₂, ?_, hc2, hc3, ?_, ?_⟩
      · simp only [dispatchAll, hsend]
        exact hc1
      · simp only [dispatchAll, hsend]
        exact hc4
      · intro nm sz hmem
        simp only [dispatchAll, hsend] at hmem
        rcases List.mem_append.mp hmem with h | h
        · simp only [List.mem_singleton] at h
          injection h with h1 h2 h3 h4
          exact htidne h2.symm
        · exact hc5 nm sz h



/-- Claim C1 (amended): a pending send is acted on only by a
reconciliation pass that finds its peer's channel open.  When the
channel is missing or not open the pass changes nothing and dispatches
nothing — so a queued send whose channel never opens is never retried
and never marked failed.  On a pass with an open channel (for a queue
with pairwise distinct transfer ids, file identities and file names) an
entry whose retry count has reached 5 has its transfer marked `failed`
but remains in the per-peer pending queue, and no dispatch is made for
it. -/
theorem pendingRetry_amended (channels : List (String × Channel)) (st : EngineState)
    (peerId : String) :
    ((∀ ch : Channel, mapGet peerId channels = some ch → ch.readyState ≠ "open") →
        reconcilePeer channels peerId st = (st, [])) ∧
    (∀ (ch : Channel) (pend : List PendingFile) (p : PendingFile),
        mapGet peerId channels = some ch → ch.readyState = "open" →
        mapGet peerId st.pendingFiles = some pend →
        (pend.map (fun q => q.transferId)).Nodup →
        (pend.map (fun q => q.file.fid)).Nodup →
        (pend.map (fun q => q.file.name)).Nodup →
        p ∈ pend → 5 ≤ p.retries →
        (∀ t ∈ (reconcilePeer channels peerId st).1.transfers,
            t.id = p.transferId → t.status = "failed") ∧
        (∃ cur', mapGet peerId (reconcilePeer channels peerId st).1.pendingFiles =
            some cur' ∧ p ∈ cur') ∧
        (∀ (nm : String) (sz : Nat),
            TransferEv.metaSent peerId p.transferId nm sz ∉
              (reconcilePeer channels peerId st).2)) := by
  constructor
  · intro h
    rcases hpend : mapGet peerId st.pendingFiles with _ | pend
    · simp only [reconcilePeer, hpend]
    · rcases hchan : mapGet peerId channels with _ | ch
      · simp only [reconcilePeer, hpend, hchan]
      · simp only [reconcilePeer, hpend, hchan]
        rw [if_neg (h ch hchan)]
  · intro ch pend p hch hopen hpend htids hfids hnames hp hret
    have hrec : reconcilePeer channels peerId st =
        reconcilePeerOpen channels peerId pend st := by
      unfold reconcilePeer
      simp only [hpend, hch, hopen, if_true]
    have hfailmem : p.transferId ∈
        (pend.filter (fun q => !decide (q.retries < 5))).map
          (fun q => q.transferId) := by
      refine List.mem_map_of_mem _ (List.mem_filter.mpr ⟨hp, ?_⟩)
      simp only [Bool.not_eq_true', decide_eq_false_iff_not]
      omega
    have hfail1 : ∀ t ∈
        ((pend.filter (fun q => !decide (q.retries < 5))).map
            (fun q => q.transferId)).foldl
          (fun ts tid => setTransfersStatus tid "failed" ts) st.transfers,
        t.id = p.transferId → t.status = "failed" :=
      foldl_setFailed_marks _ _ _ (Or.inl hfailmem)
    have hmatch' : ∀ f ∈ (pend.filter (fun q => decide (q.retries < 5))).map
        (fun q => q.file), pend.any (pendingMatch f) = true := by
      intro f hf
      obtain ⟨q, hq, rfl⟩ := List.mem_map.mp hf
      rw [List.any_eq_true]
      exact ⟨q, (List.mem_filter.mp hq).1, by simp [pendingMatch]⟩
    have hnomatch' : ∀ f ∈ (pend.filter (fun q => decide (q.retries < 5))).map
        (fun q => q.file), pendingMatch f p = false := by
      intro f hf
      obtain ⟨q, hq, rfl⟩ := List.mem_map.mp hf
      obtain ⟨hqmem, hq5⟩ := List.mem_filter.mp hq
      have hq5' : q.retries < 5 := of_decide_eq_true hq5
      have hpq : p ≠ q := by
        intro he
        rw [he] at hret
        omega
      have hfid : p.file.fid ≠ q.file.fid := by
        intro he
        exact hpq (eq_of_nodup_map hfids hp hqmem he)
      have hname : p.file.name ≠ q.file.name := by
        intro he
        exact hpq (eq_of_nodup_map hnames hp hqmem he)
      simp only [pendingMatch, Bool.or_eq_false_iff]
      exact ⟨beq_eq_false_iff_ne.mpr hfid, beq_eq_false_iff_ne.mpr hname⟩
    have hdisp :=
      dispatchAll_protected channels peerId ch hch hopen p pend htids
        ((pend.filter (fun q => decide (q.retries < 5))).map (fun q => q.file))
        hmatch' hnomatch'
        (⟨st.pendingFiles,
          ((pend.filter (fun q => !decide (q.retries < 5))).map
              (fun q => q.transferId)).foldl
            (fun ts tid => setTransfersStatus tid "failed" ts) st.transfers,
          st.txCounter⟩ : EngineState)
        pend hpend rfl hp hfail1
    obtain ⟨cur₂, hc1, hc2, hc3, hc4, hc5⟩ := hdisp
    have hnotsent : p.transferId ∉
        (pend.filter (fun q => decide (q.retries < 5))).map
          (fun q => q.transferId) := by
      intro hmem
      obtain ⟨q, hq, he⟩ := List.mem_map.mp hmem
      obtain ⟨hqmem, hq5⟩ := List.mem_filter.mp hq
      have hq5' : q.retries < 5 := of_decide_eq_true hq5
      have : q = p := eq_of_nodup_map htids hqmem hp he
      rw [this] at hq5'
      omega
    have hcontains : ((pend.filter (fun q => decide (q.retries < 5))).map
        (fun q => q.transferId)).contains p.transferId = false := by
      rw [← Bool.not_eq_true, List.contains_iff_exists_mem_beq]
      rintro ⟨b, hb, hbeq⟩
      rw [beq_iff_eq] at hbeq
      exact hnotsent (hbeq ▸ hb)
    have hpr : p ∈ cur₂.filter (fun q =>
        !(((pend.filter (fun q => decide (q.retries < 5))).map
            (fun q => q.transferId)).contains q.transferId)) :=
      List.mem_filter.mpr ⟨hc3, by rw [hcontains]; rfl⟩
    rw [hrec]
    simp only [reconcilePeerOpen, hc1, Option.getD_some]
    refine ⟨?_, ?_, ?_⟩
    · intro t ht htid
      exact hc4 t (by simpa using ht) htid
    · rw [if_neg (List.ne_nil_of_mem hpr)]
      exact ⟨_, mapGet_mapSet_self .., hpr⟩
    · intro nm sz hmem
      exact hc5 nm sz (by simpa using hmem)

/-- Claim C1, counterexample: a queued send whose data channel never
opens (here there is no channel at all) is never retried and never
marked `failed`: the reconciliation pass is the identity on this state
— shown once and iterated five times — and the transfer stays `queued`
forever, contradicting the claim that such a send is marked `failed`
after exactly 5 retry attempts. -/
theorem pendingRetry_never_fails_cex :
    reconcileStep [] ⟨[("peer", [⟨⟨1, "f", 10⟩, 1, 0⟩])],
        [⟨1, "peer", "f", 10, "queued"⟩], 1⟩ =
      (⟨[("peer", [⟨⟨1, "f", 10⟩, 1, 0⟩])], [⟨1, "peer", "f", 10, "queued"⟩], 1⟩,
        []) ∧
    (fun s => (reconcileStep [] s).1)^[5]
        ⟨[("peer", [⟨⟨1, "f", 10⟩, 1, 0⟩])], [⟨1, "peer", "f", 10, "queued"⟩], 1⟩ =
      ⟨[("peer", [⟨⟨1, "f", 10⟩, 1, 0⟩])], [⟨1, "peer", "f", 10, "queued"⟩], 1⟩ := by
  decide

/-- Witness for `pendingRetry_amended`: one pending entry with 5 retries
on an open channel is marked failed, stays queued and is not
dispatched. -/
theorem pendingRetry_amended_witness :
    (∀ t ∈ (reconcilePeer [("peer", ⟨7, "open"⟩)] "peer"
        ⟨[("peer", [⟨⟨1, "f", 10⟩, 1, 5⟩])],
          [⟨1, "peer", "f", 10, "queued"⟩], 1⟩).1.transfers,
        t.id = 1 → t.status = "failed") ∧
    (∃ cur', mapGet "peer" (reconcilePeer [("peer", ⟨7, "open"⟩)] "peer"
        ⟨[("peer", [⟨⟨1, "f", 10⟩, 1, 5⟩])],
          [⟨1, "peer", "f", 10, "queued"⟩], 1⟩).1.pendingFiles =
        some cur' ∧ (⟨⟨1, "f", 10⟩, 1, 5⟩ : PendingFile) ∈ cur') ∧
    (∀ (nm : String) (sz : Nat), TransferEv.metaSent "peer" 1 nm sz ∉
        (reconcilePeer [("peer", ⟨7, "open"⟩)] "peer"
          ⟨[("peer", [⟨⟨1, "f", 10⟩, 1, 5⟩])],
            [⟨1, "peer", "f", 10, "queued"⟩], 1⟩).2) :=
  (pendingRetry_amended [("peer", ⟨7, "open"⟩)]
      ⟨[("peer", [⟨⟨1, "f", 10⟩, 1, 5⟩])], [⟨1, "peer", "f", 10, "queued"⟩], 1⟩
      "peer").2
    ⟨7, "open"⟩ [⟨⟨1, "f", 10⟩, 1, 5⟩] ⟨⟨1, "f", 10⟩, 1, 5⟩
    (by decide) (by decide) (by decide) (by decide) (by decide) (by decide)
    (by decide) (by decide)

end Dropper
